import Mathlib

/-!
Verification development for the UP (Unified Properties) Go library:
a shallow embedding of the line-oriented document parser (`parser.go`)
and of the template engine (`template.go`), together with theorems about
the behaviours documented for them.

Go strings are modelled as lists of characters (`GoStr`); the inputs in
question are ASCII, where one byte corresponds to one character, so Go's
byte-indexed slicing coincides with list indexing.  Go's `bufio.Scanner`
is modelled as the list of input lines plus the current line number.
Functions whose Go originals can fail return `Option`/`Except`-like
results; loops whose Go originals are unbounded take a fuel parameter.
-/

namespace UP

/-- A Go string, as a list of characters (ASCII inputs: byte = char). -/
abbrev GoStr := List Char

/-- Turn a Lean string literal into a `GoStr`. -/
def gs (s : String) : GoStr := s.toList

/-- Whitespace recognised by Go's `strings.TrimSpace` (ASCII range). -/
def isGoSpace (c : Char) : Bool :=
  c = ' ' || c = '\t' || c = '\n' || c = '\x0b' || c = '\x0c' || c = '\r'

/-- Go `strings.TrimSpace` (ASCII subset of Unicode spaces). -/
def trimSpace (s : GoStr) : GoStr :=
  ((s.dropWhile isGoSpace).reverse.dropWhile isGoSpace).reverse

/-- Go `strings.HasPrefix`. -/
def hasPrefixGo (s pre : GoStr) : Bool := pre.isPrefixOf s

/-- Go `strings.HasSuffix`. -/
def hasSuffixGo (s suf : GoStr) : Bool := suf.isSuffixOf s

/-- Go `strings.TrimPrefix`. -/
def trimPrefixGo (s pre : GoStr) : GoStr :=
  if hasPrefixGo s pre then s.drop pre.length else s

/-- Go `strings.TrimSuffix`. -/
def trimSuffixGo (s suf : GoStr) : GoStr :=
  if hasSuffixGo s suf then s.take (s.length - suf.length) else s

/-- Go `strings.IndexAny(s, " \t")`: first index of a space or tab
(`none` models Go's `-1`). -/
def indexAnySpaceTab (s : GoStr) : Option Nat :=
  s.findIdx? (fun c => c = ' ' || c = '\t')

/-- Go `strings.Index(s, pat)`: index of the first occurrence of the
substring `pat` (`none` models Go's `-1`). -/
def indexOfSub : GoStr → GoStr → Option Nat
  | s, pat =>
    if hasPrefixGo s pat then some 0
    else match s with
      | [] => none
      | _ :: t => (indexOfSub t pat).map (· + 1)

/-- Go `strings.Contains`. -/
def containsSub (s pat : GoStr) : Bool := (indexOfSub s pat).isSome

/-- Go `strings.Split` with a one-character separator. -/
def splitOnChar (c : Char) (s : GoStr) : List GoStr := s.splitOn c

/-- Go `strings.Join`/`strings.Split` inverse with a one-character
separator: `List.intercalate` with that character. -/
def joinChar (c : Char) (pieces : List GoStr) : GoStr :=
  List.intercalate [c] pieces

/-- Go `strings.Replace(s, pat, repl, 1)`: replace the first occurrence.
(Our call sites always pass a nonempty `pat`.) -/
def replaceFirstGo (s pat repl : GoStr) : GoStr :=
  match indexOfSub s pat with
  | none => s
  | some i => s.take i ++ repl ++ s.drop (i + pat.length)

/-- Go `strings.ReplaceAll` for a nonempty pattern: replace every
non-overlapping occurrence, scanning left to right.  (Our call sites
always pass a nonempty `pat`; Go's empty-pattern behaviour is not
modelled.) -/
def replaceAllGo : GoStr → GoStr → GoStr → GoStr
  | [], _, _ => []
  | c :: rest, pat, repl =>
    if _h : pat.length = 0 then c :: rest
    else match indexOfSub (c :: rest) pat with
      | none => c :: rest
      | some i =>
        (c :: rest).take i ++ repl ++
          replaceAllGo ((c :: rest).drop (i + pat.length)) pat repl
termination_by s _ _ => s.length
decreasing_by
  simp only [List.length_drop, List.length_cons]
  omega

/-- Go `strconv.Atoi`: optional sign, at least one ASCII digit, nothing
else, and the value must fit in a signed 64-bit `int`. -/
def atoiGo (s : GoStr) : Option Int :=
  let (sign, digits) : Int × GoStr :=
    match s with
    | '+' :: r => (1, r)
    | '-' :: r => (-1, r)
    | r => (1, r)
  if digits.isEmpty then none
  else if digits.all (fun c => '0' ≤ c && c ≤ '9') then
    let n : Int := digits.foldl (fun a c => a * 10 + (Int.ofNat (c.toNat - 48))) 0
    let v := sign * n
    if v < -(2 ^ 63) || 2 ^ 63 - 1 < v then none else some v
  else none

/-- Digits of a natural number, for `fmt`-style formatting of line
numbers in error messages. -/
def showNat (n : Nat) : GoStr := Nat.toDigits 10 n

/-- Lookup in a Go map modelled as an association list. -/
def lookupAL {β : Type} (b : List (GoStr × β)) (k : GoStr) : Option β :=
  (b.find? (fun e => e.1 == k)).map (·.2)

/-- Go map assignment `m[k] = v`: overwrite the existing entry, or add a
new one. -/
def putAL {β : Type} (b : List (GoStr × β)) (k : GoStr) (v : β) : List (GoStr × β) :=
  if (b.find? (fun e => e.1 == k)).isSome
  then b.map (fun e => if e.1 == k then (e.1, v) else e)
  else b ++ [(k, v)]

/-! ### Parser data model (`types.go`) -/

/-- A parsed UP value (Go's `Value = any`).  `str` is a scalar string;
`block` is a `Block` (`map[string]Value`, modelled as an association
list with map-assignment semantics); `list` is the named slice type
`List` (`[]Value`); `arr` is a plain `[]any` slice, the distinct dynamic
type produced by `parseInlineList`, `parseTable` and
`parseBlockOfLists`; `useDir` is a `UseDirective`. -/
inductive PValue where
  | str (s : GoStr)
  | block (b : List (GoStr × PValue))
  | list (l : List PValue)
  | arr (l : List PValue)
  | useDir (namespaces : List GoStr)

/-- Go `Node`: key, optional type annotation (field `Type`, here `typ`)
and value. -/
structure PNode where
  key : GoStr
  typ : GoStr
  value : PValue

/-- The `Scanner`: remaining input lines plus the 1-based number of the
last line handed out. -/
structure Sc where
  lines : List GoStr
  lineNum : Nat
deriving DecidableEq

/-- Outcome of a parsing function: success with the remaining scanner
state, a returned `error`, a Go runtime panic, or fuel exhaustion (the
model's marker for an unfinished computation; it never occurs with fuel
exceeding the number of remaining input lines). -/
inductive PRes (α : Type) where
  | ok (a : α) (rest : Sc)
  | err (msg : GoStr)
  | panicked
  | fuelOut

/-! ### Parser (`parser.go`, with line-oriented syntax and directives).

The model fixes the `NewParser()` default configuration: `dedentLines`
as the dedent function, blank-after-trim as the empty-line predicate and
`#`-after-trim as the comment predicate. -/

/-- Default `skipEmptyLine` predicate. -/
def skipEmptyLineGo (line : GoStr) : Bool := (trimSpace line).isEmpty

/-- Default `skipComment` predicate. -/
def skipCommentGo (line : GoStr) : Bool := hasPrefixGo (trimSpace line) (gs "#")

/-- `stripSurroundingQuotes`: remove one layer of surrounding double
quotes when the string has length at least 2 and both a leading and a
trailing quote. -/
def stripSurroundingQuotesGo (s : GoStr) : GoStr :=
  if 2 ≤ s.length && hasPrefixGo s (gs "\"") && hasSuffixGo s (gs "\"")
  then (s.drop 1).take (s.length - 2)
  else s

/-- `parseKeyAndType`: split the key part at the first `!`. -/
def parseKeyAndTypeGo (keyPart : GoStr) : GoStr × GoStr :=
  match indexOfSub keyPart (gs "!") with
  | some i => (keyPart.take i, keyPart.drop (i + 1))
  | none => (keyPart, [])

/-- `splitKeyValue`: split a line into key part, value part and the
line-oriented flag.  Line-oriented syntax triggers when the key token
ends with `:` but does not contain `://`; in that mode the value is
truncated at the first `#` and surrounding quotes are stripped. -/
def splitKeyValueGo (line0 : GoStr) : GoStr × GoStr × Bool :=
  let line := trimSpace line0
  let keyEnd := match indexAnySpaceTab line with
    | some i => i
    | none => line.length
  let keyPart := line.take keyEnd
  if hasSuffixGo keyPart (gs ":") && !(containsSub keyPart (gs "://")) then
    let key := trimSuffixGo keyPart (gs ":")
    let value :=
      if keyEnd < line.length then
        let v := trimSpace (line.drop keyEnd)
        let v := match indexOfSub v (gs "#") with
          | some i => trimSpace (v.take i)
          | none => v
        stripSurroundingQuotesGo v
      else []
    (key, value, true)
  else if keyEnd < line.length then
    (keyPart, stripSurroundingQuotesGo (trimSpace (line.drop keyEnd)), false)
  else (keyPart, [], false)

/-- `parseInlineList`: `[a, b, c]` to its trimmed comma-separated items
(a `[]any` of strings in Go; the error result is always `nil`). -/
def parseInlineListGo (line : GoStr) : List GoStr :=
  let l1 := trimSpace line
  let l2 := trimPrefixGo l1 (gs "[")
  let l3 := trimSuffixGo l2 (gs "]")
  if l3.isEmpty then []
  else (splitOnChar ',' l3).map trimSpace

/-- `parseInlineBlock`: a single-line `\x7b key1 v1, key2 v2 \x7d`
block. -/
def parseInlineBlockGo (s : GoStr) : List (GoStr × PValue) :=
  let s1 := trimSpace s
  let s2 := trimPrefixGo s1 (gs "\x7b")
  let s3 := trimSuffixGo s2 (gs "\x7d")
  let s4 := trimSpace s3
  if s4.isEmpty then []
  else
    (splitOnChar ',' s4).foldl
      (fun block part =>
        let part := trimSpace part
        if part.isEmpty then block
        else
          let (keyPart, valPart, _) := splitKeyValueGo part
          let (key, _) := parseKeyAndTypeGo keyPart
          putAL block key (.str valPart))
      []

/-- `dedentLines` applied to one line: Go's `line[n:]` slice panics
(`none`) when `n` is negative; the guard `len(line) >= n` otherwise
keeps `n` within bounds. -/
def dedentLineGo (l : GoStr) (n : Int) : Option GoStr :=
  if n ≤ (l.length : Int) then
    if n < 0 then none else some (l.drop n.toNat)
  else some l

/-- `dedentLines`: split on newlines, slice `n` characters off every
line of sufficient length, re-join.  `none` models the runtime panic on
a negative `n`. -/
def dedentLinesGo (s : GoStr) (n : Int) : Option GoStr :=
  ((splitOnChar '\n' s).mapM (fun l => dedentLineGo l n)).map (joinChar '\n')

/-- The line-collecting loop of `parseMultiline`: gather lines verbatim
until a line whose trimmed form is three backticks, or end of input. -/
def multilineLoop : List GoStr → Nat → (List GoStr × Sc)
  | [], n => ([], ⟨[], n⟩)
  | l :: rest, n =>
    if trimSpace l = gs "```" then ([], ⟨rest, n + 1⟩)
    else
      let (content, sc') := multilineLoop rest (n + 1)
      (l :: content, sc')

/-- `parseMultiline`: collect fenced lines, join with newlines, then
dedent when the node's type annotation parses as an integer.  (The
language hint after the opening fence is computed and dropped, as in the
source.) -/
def parseMultilineGo (typ : GoStr) (line : GoStr) (sc : Sc) : PRes GoStr :=
  let _langHint := trimSpace (trimPrefixGo line (gs "```"))
  let (content, sc') := multilineLoop sc.lines sc.lineNum
  let text := joinChar '\n' content
  if !typ.isEmpty then
    match atoiGo typ with
    | some d =>
      match dedentLinesGo text d with
      | some t => .ok t sc'
      | none => .panicked
    | none => .ok text sc'
  else .ok text sc'

/-- The row-collecting loop of `parseBlockOfLists`: gather `[...]` rows
until a `\x7d` line or end of input. -/
def parseBlockOfListsGo : List GoStr → Nat → (List (List GoStr) × Sc)
  | [], n => ([], ⟨[], n⟩)
  | l :: rest, n =>
    let line := trimSpace l
    if line = gs "\x7d" then ([], ⟨rest, n + 1⟩)
    else if skipEmptyLineGo line || skipCommentGo line then
      parseBlockOfListsGo rest (n + 1)
    else if hasPrefixGo line (gs "[") then
      let (rows, sc') := parseBlockOfListsGo rest (n + 1)
      (parseInlineListGo line :: rows, sc')
    else parseBlockOfListsGo rest (n + 1)

/-- `parseUseDirective`: the remainder after `!use` must start with `[`;
its inline items become the `UseDirective` namespaces.  It reads no
further input lines. -/
def parseUseDirectiveGo (line0 : GoStr) : Except GoStr PNode :=
  let line := trimSpace (trimPrefixGo (trimSpace line0) (gs "!use"))
  if hasPrefixGo line (gs "[") then
    .ok ⟨gs "_use", gs "directive", .useDir (parseInlineListGo line)⟩
  else .error (gs "!use directive requires a list: !use [namespace1, namespace2]")

/-- Error wrapping `fmt.Errorf("line %d: %w", lineNum, err)`. -/
def lineWrap (num : Nat) (e : GoStr) : GoStr :=
  gs "line " ++ showNat num ++ gs ": " ++ e

/-! ### The recursive parser.

The Go functions `parseNodes`, `parseLintDirective`, `parseLine`,
`parseValue`, `parseBlock`, `parseList`, `parseListItem` and
`parseTable` are mutually recursive; every cycle through them consumes
at least one input line.  The model makes that termination argument
explicit with a fuel parameter that decreases by one each time a loop
consumes a line (`.fuelOut` results are an artefact of insufficient
fuel; fuel exceeding the number of input lines always suffices).  Each
`...Step` definition below is the body of one Go function, abstracted
over the functions it calls: arguments suffixed `N` are called at the
same fuel level, those suffixed `P` after a line was consumed (previous
fuel level).  `parsersAt` ties the knot by structural recursion on
fuel. -/

/-- `parseNodes` body: skip blank/comment lines, dispatch `!use` and
`!lint` directives (wrapping their errors with the 1-based line
number), otherwise parse a key/value line and loop. -/
def parseNodesStep (plintP : GoStr → Sc → PRes PNode)
    (plineP : Sc → GoStr → PRes PNode)
    (pnodesP : Sc → PRes (List PNode)) (sc : Sc) : PRes (List PNode) :=
  match sc.lines with
  | [] => .ok [] ⟨[], sc.lineNum⟩
  | l :: rest =>
    let num := sc.lineNum + 1
    let sc' : Sc := ⟨rest, num⟩
    if skipEmptyLineGo l || skipCommentGo l then pnodesP sc'
    else
      let trimmedLine := trimSpace l
      if hasPrefixGo trimmedLine (gs "!use") then
        match parseUseDirectiveGo trimmedLine with
        | .error e => .err (lineWrap num e)
        | .ok node =>
          match pnodesP sc' with
          | .ok ns sc2 => .ok (node :: ns) sc2
          | r => r
      else if hasPrefixGo trimmedLine (gs "!lint") then
        match plintP trimmedLine sc' with
        | .ok node sc2 =>
          match pnodesP sc2 with
          | .ok ns sc3 => .ok (node :: ns) sc3
          | r => r
        | .err e => .err (lineWrap num e)
        | .panicked => .panicked
        | .fuelOut => .fuelOut
      else
        match plineP sc' l with
        | .ok node sc2 =>
          match pnodesP sc2 with
          | .ok ns sc3 => .ok (node :: ns) sc3
          | r => r
        | .err e => .err (lineWrap num e)
        | .panicked => .panicked
        | .fuelOut => .fuelOut

/-- `parseLintDirective` body: after `!lint` the remainder must be
`\x7b`, opening a block that becomes the `_lint` node's value. -/
def parseLintStep (pblockN : List (GoStr × PValue) → Sc → PRes (List (GoStr × PValue)))
    (line0 : GoStr) (sc : Sc) : PRes PNode :=
  let line := trimSpace (trimPrefixGo (trimSpace line0) (gs "!lint"))
  if line = gs "\x7b" then
    match pblockN [] sc with
    | .ok b sc' => .ok ⟨gs "_lint", gs "directive", .block b⟩ sc'
    | .err e => .err e
    | .panicked => .panicked
    | .fuelOut => .fuelOut
  else .err (gs "!lint directive requires a block: !lint \x7b ... \x7d")

/-- `parseLine` body: split the line, extract key and type annotation,
special-case the `quoted` annotation, and parse the value part. -/
def parseLineStep (pvalueN : GoStr → GoStr → Bool → Sc → PRes PValue)
    (sc : Sc) (line : GoStr) : PRes PNode :=
  let (keyPart, valPart, lineOriented) := splitKeyValueGo line
  let (key, typeAnn) := parseKeyAndTypeGo keyPart
  if typeAnn = gs "quoted" then
    let q := gs "\""
    let vp := if !(hasPrefixGo valPart q) || !(hasSuffixGo valPart q)
              then q ++ valPart ++ q else valPart
    .ok ⟨key, gs "string", .str vp⟩ sc
  else
    match pvalueN typeAnn valPart lineOriented sc with
    | .ok v sc' => .ok ⟨key, typeAnn, v⟩ sc'
    | .err e => .err e
    | .panicked => .panicked
    | .fuelOut => .fuelOut

/-- `parseValue` body: dispatch on the shape of the value part
(multiline fence, block opener, list opener, inline list, inline block,
table-annotated block, or plain scalar).  The line-oriented flag is
received but, as in the source, unused. -/
def parseValueStep (pblockN : List (GoStr × PValue) → Sc → PRes (List (GoStr × PValue)))
    (plistN : List PValue → Sc → PRes (List PValue))
    (ptableN : List (GoStr × PValue) → Sc → PRes (List (GoStr × PValue)))
    (typ : GoStr) (valPart : GoStr) (_lineOriented : Bool) (sc : Sc) : PRes PValue :=
  if hasPrefixGo valPart (gs "```") then
    match parseMultilineGo typ valPart sc with
    | .ok t sc' => .ok (.str t) sc'
    | .err e => .err e
    | .panicked => .panicked
    | .fuelOut => .fuelOut
  else if valPart = gs "\x7b" then
    match pblockN [] sc with
    | .ok b sc' => .ok (.block b) sc'
    | .err e => .err e
    | .panicked => .panicked
    | .fuelOut => .fuelOut
  else if valPart = gs "[" then
    match plistN [] sc with
    | .ok items sc' => .ok (.list items) sc'
    | .err e => .err e
    | .panicked => .panicked
    | .fuelOut => .fuelOut
  else if hasPrefixGo valPart (gs "[") && hasSuffixGo valPart (gs "]") then
    .ok (.arr ((parseInlineListGo valPart).map .str)) sc
  else if hasPrefixGo valPart (gs "\x7b") && containsSub valPart (gs "\x7d") then
    .ok (.block (parseInlineBlockGo valPart)) sc
  else if typ = gs "table" && hasPrefixGo valPart (gs "\x7b") then
    match ptableN [] sc with
    | .ok t sc' => .ok (.block t) sc'
    | .err e => .err e
    | .panicked => .panicked
    | .fuelOut => .fuelOut
  else .ok (.str valPart) sc

/-- `parseBlock` body: consume statement lines into a `Block` until a
`\x7d` line or end of input (`acc` is the block built so far). -/
def parseBlockStep (plineP : Sc → GoStr → PRes PNode)
    (pblockP : List (GoStr × PValue) → Sc → PRes (List (GoStr × PValue)))
    (acc : List (GoStr × PValue)) (sc : Sc) : PRes (List (GoStr × PValue)) :=
  match sc.lines with
  | [] => .ok acc ⟨[], sc.lineNum⟩
  | l :: rest =>
    let sc' : Sc := ⟨rest, sc.lineNum + 1⟩
    let line := trimSpace l
    if line = gs "\x7d" then .ok acc sc'
    else if skipEmptyLineGo line || skipCommentGo line then pblockP acc sc'
    else
      match plineP sc' line with
      | .ok node sc2 => pblockP (putAL acc node.key node.value) sc2
      | .err e => .err e
      | .panicked => .panicked
      | .fuelOut => .fuelOut

/-- `parseList` body: consume item lines into a `List` until a `]` line
or end of input. -/
def parseListStep (pitemP : GoStr → Sc → PRes PValue)
    (plistP : List PValue → Sc → PRes (List PValue))
    (acc : List PValue) (sc : Sc) : PRes (List PValue) :=
  match sc.lines with
  | [] => .ok acc ⟨[], sc.lineNum⟩
  | l :: rest =>
    let sc' : Sc := ⟨rest, sc.lineNum + 1⟩
    let line := trimSpace l
    if line = gs "]" then .ok acc sc'
    else if skipEmptyLineGo line || skipCommentGo line then plistP acc sc'
    else
      match pitemP line sc' with
      | .ok item sc2 => plistP (acc ++ [item]) sc2
      | .err e => .err e
      | .panicked => .panicked
      | .fuelOut => .fuelOut

/-- `parseListItem` body: a `\x7b`-prefixed item opens a nested block,
a `[`-prefixed item is an inline list, anything else is a scalar. -/
def parseListItemStep (pblockN : List (GoStr × PValue) → Sc → PRes (List (GoStr × PValue)))
    (line : GoStr) (sc : Sc) : PRes PValue :=
  if hasPrefixGo line (gs "\x7b") then
    match pblockN [] sc with
    | .ok b sc' => .ok (.block b) sc'
    | .err e => .err e
    | .panicked => .panicked
    | .fuelOut => .fuelOut
  else if hasPrefixGo line (gs "[") then
    .ok (.arr ((parseInlineListGo line).map .str)) sc
  else .ok (.str line) sc

/-- `parseTable` body: consume `columns ...` and `rows \x7b ... \x7d`
entries into a `map[string]any` until a `\x7d` line or end of input. -/
def parseTableStep (ptableP : List (GoStr × PValue) → Sc → PRes (List (GoStr × PValue)))
    (acc : List (GoStr × PValue)) (sc : Sc) : PRes (List (GoStr × PValue)) :=
  match sc.lines with
  | [] => .ok acc ⟨[], sc.lineNum⟩
  | l :: rest =>
    let sc' : Sc := ⟨rest, sc.lineNum + 1⟩
    let line := trimSpace l
    if line = gs "\x7d" then .ok acc sc'
    else if skipEmptyLineGo line || skipCommentGo line then ptableP acc sc'
    else if hasPrefixGo line (gs "columns") then
      let colList := parseInlineListGo (line.drop (gs "columns").length)
      ptableP (putAL acc (gs "columns") (.arr (colList.map .str))) sc'
    else if hasPrefixGo line (gs "rows") then
      let (rows, sc2) := parseBlockOfListsGo sc'.lines sc'.lineNum
      ptableP (putAL acc (gs "rows") (.arr (rows.map (fun r => .arr (r.map .str))))) sc2
    else ptableP acc sc'

/-- The eight mutually recursive parser functions at one fuel level. -/
structure Parsers where
  pnodes : Sc → PRes (List PNode)
  plint : GoStr → Sc → PRes PNode
  pline : Sc → GoStr → PRes PNode
  pvalue : GoStr → GoStr → Bool → Sc → PRes PValue
  pitem : GoStr → Sc → PRes PValue
  pblock : List (GoStr × PValue) → Sc → PRes (List (GoStr × PValue))
  plist : List PValue → Sc → PRes (List PValue)
  ptable : List (GoStr × PValue) → Sc → PRes (List (GoStr × PValue))

/-- The parsers at a given fuel level: the line-consuming loops
(`pnodes`, `pblock`, `plist`, `ptable`) report fuel exhaustion at level
0 and otherwise consult the previous level after consuming a line; the
non-looping functions (`plint`, `pline`, `pvalue`, `pitem`) forward to
the loops of the same level. -/
def parsersAt : Nat → Parsers
  | 0 =>
    let pblock0 : List (GoStr × PValue) → Sc → PRes (List (GoStr × PValue)) :=
      fun _ _ => .fuelOut
    let plist0 : List PValue → Sc → PRes (List PValue) := fun _ _ => .fuelOut
    let ptable0 : List (GoStr × PValue) → Sc → PRes (List (GoStr × PValue)) :=
      fun _ _ => .fuelOut
    let pvalue0 := parseValueStep pblock0 plist0 ptable0
    { pnodes := fun _ => .fuelOut
      plint := parseLintStep pblock0
      pline := parseLineStep pvalue0
      pvalue := pvalue0
      pitem := parseListItemStep pblock0
      pblock := pblock0
      plist := plist0
      ptable := ptable0 }
  | n + 1 =>
    let prev := parsersAt n
    let pblock := parseBlockStep prev.pline prev.pblock
    let plist := parseListStep prev.pitem prev.plist
    let ptable := parseTableStep prev.ptable
    let pvalue := parseValueStep pblock plist ptable
    { pnodes := parseNodesStep prev.plint prev.pline prev.pnodes
      plint := parseLintStep pblock
      pline := parseLineStep pvalue
      pvalue := pvalue
      pitem := parseListItemStep pblock
      pblock := pblock
      plist := plist
      ptable := ptable }

/-- `parseNodes` with the given fuel. -/
def parseNodesF (fuel : Nat) (sc : Sc) : PRes (List PNode) := (parsersAt fuel).pnodes sc

/-- `parseLintDirective` with the given fuel. -/
def parseLintDirectiveF (fuel : Nat) (line0 : GoStr) (sc : Sc) : PRes PNode :=
  (parsersAt fuel).plint line0 sc

/-- `parseLine` with the given fuel. -/
def parseLineF (fuel : Nat) (sc : Sc) (line : GoStr) : PRes PNode :=
  (parsersAt fuel).pline sc line

/-- `parseValue` with the given fuel. -/
def parseValueF (fuel : Nat) (typ valPart : GoStr) (lineOriented : Bool) (sc : Sc) : PRes PValue :=
  (parsersAt fuel).pvalue typ valPart lineOriented sc

/-- `parseListItem` with the given fuel. -/
def parseListItemF (fuel : Nat) (line : GoStr) (sc : Sc) : PRes PValue :=
  (parsersAt fuel).pitem line sc

/-- `parseBlock` with the given fuel. -/
def parseBlockF (fuel : Nat) (acc : List (GoStr × PValue)) (sc : Sc) :
    PRes (List (GoStr × PValue)) := (parsersAt fuel).pblock acc sc

/-- `parseList` with the given fuel. -/
def parseListF (fuel : Nat) (acc : List PValue) (sc : Sc) : PRes (List PValue) :=
  (parsersAt fuel).plist acc sc

/-- `parseTable` with the given fuel. -/
def parseTableF (fuel : Nat) (acc : List (GoStr × PValue)) (sc : Sc) :
    PRes (List (GoStr × PValue)) := (parsersAt fuel).ptable acc sc

/-- `ParseDocument`: run `parseNodes` on the whole input (the reader is
the list of lines; `scanner.Err()` is `nil` in this model). -/
def parseDocumentGo (fuel : Nat) (input : List GoStr) : PRes (List PNode) :=
  parseNodesF fuel ⟨input, 0⟩

/-! ### Template engine data model (`template.go`).

Template processing operates on `any` values produced by the parser;
the ones that matter to the engine are strings, `Block`s and `List`s,
plus Go's `nil`.  Blocks are association lists with Go map-assignment
semantics; iteration order over a Go map is arbitrary, entries here are
visited in list order (the behaviours below are insensitive to it). -/

/-- A template value: string, `Block`, named slice `List`, or `nil`. -/
inductive TValue where
  | str (s : GoStr)
  | block (b : List (GoStr × TValue))
  | list (l : List TValue)
  | nilv

/-- A template-engine document node. -/
structure TNode where
  key : GoStr
  typ : GoStr
  value : TValue

/-- A template-engine document (`Document.Nodes`). -/
abbrev TDoc := List TNode

/-- The harvested variables mapping `e.vars` (`map[string]any`). -/
abbrev Vars := List (GoStr × TValue)

/-- `TemplateOptions`. -/
structure TemplateOptions where
  mergeStrategy : GoStr
  listStrategy : GoStr
  baseDir : GoStr

/-- `NewTemplateEngine()` defaults. -/
def defaultOptions : TemplateOptions :=
  ⟨gs "deep", gs "append", gs "."⟩

/-- Byte-wise lexicographic comparison of strings, for `fmt`'s sorted
printing of map keys. -/
def ltStr : GoStr → GoStr → Bool
  | [], [] => false
  | [], _ :: _ => true
  | _ :: _, [] => false
  | a :: as, b :: bs =>
    if a.toNat < b.toNat then true
    else if b.toNat < a.toNat then false
    else ltStr as bs

/-- Insert a rendered `k:v` entry into a key-sorted list. -/
def insertSortedR (e : GoStr × GoStr) : List (GoStr × GoStr) → List (GoStr × GoStr)
  | [] => [e]
  | f :: rest => if ltStr e.1 f.1 then e :: f :: rest else f :: insertSortedR e rest

/-- Sort rendered entries by key (insertion sort), for `fmt`'s sorted
map printing. -/
def sortRendered (b : List (GoStr × GoStr)) : List (GoStr × GoStr) :=
  b.foldr insertSortedR []

/-- Space-separated rendering of sorted `k:v` map entries. -/
def joinRendered : List (GoStr × GoStr) → GoStr
  | [] => []
  | [(k, v)] => k ++ gs ":" ++ v
  | (k, v) :: rest => k ++ gs ":" ++ v ++ gs " " ++ joinRendered rest

mutual
/-- Go `fmt.Sprint` of a template value: strings print as themselves,
slices as `[v1 v2 ...]`, maps as `map[k1:v1 k2:v2 ...]` with keys in
sorted order, `nil` as `<nil>`. -/
def sprintGo : TValue → GoStr
  | .str s => s
  | .list l => gs "[" ++ sprintItems l ++ gs "]"
  | .block b => gs "map[" ++ joinRendered (sortRendered (renderEntries b)) ++ gs "]"
  | .nilv => gs "<nil>"

/-- Space-separated `fmt` rendering of slice elements. -/
def sprintItems : List TValue → GoStr
  | [] => []
  | [v] => sprintGo v
  | v :: rest => sprintGo v ++ gs " " ++ sprintItems rest

/-- Render each map entry to `(key, printed value)`. -/
def renderEntries : List (GoStr × TValue) → List (GoStr × GoStr)
  | [] => []
  | (k, v) :: rest => (k, sprintGo v) :: renderEntries rest
end

mutual
/-- `valuesEqual`: structural equality used for convergence detection.
Strings compare by value; blocks need equal sizes and equal values at
every key of the first (a missing key yields Go `nil`, which compares
unequal to every switch case); lists compare pairwise.  The numeric and
boolean cases of the Go switch are unreachable here (the parser and the
engine only produce strings, blocks and lists); everything else,
including `nil`, falls to the `default: false` branch. -/
def valuesEqual : TValue → TValue → Bool
  | .str a, b =>
    match b with
    | .str bs => a == bs
    | _ => false
  | .block a, b =>
    match b with
    | .block bb => a.length == bb.length && valuesEqualEntries a bb
    | _ => false
  | .list a, b =>
    match b with
    | .list bl => a.length == bl.length && valuesEqualItems a bl
    | _ => false
  | .nilv, _ => false

/-- `valuesEqual` over the entries of the first block. -/
def valuesEqualEntries : List (GoStr × TValue) → List (GoStr × TValue) → Bool
  | [], _ => true
  | (k, v) :: rest, vb =>
    (match lookupAL vb k with
     | some w => valuesEqual v w
     | none => false) && valuesEqualEntries rest vb

/-- `valuesEqual` over list elements, pairwise. -/
def valuesEqualItems : List TValue → List TValue → Bool
  | [], _ => true
  | _ :: _, [] => false
  | v :: vs, w :: ws => valuesEqual v w && valuesEqualItems vs ws
end

/-- `isVarChar`: letters, digits and underscore. -/
def isVarCharGo (c : Char) : Bool :=
  ('a' ≤ c && c ≤ 'z') || ('A' ≤ c && c ≤ 'Z') || ('0' ≤ c && c ≤ '9') || c = '_'

/-- The `$vars.` reference marker. -/
def dollarVars : GoStr := gs "$vars."

/-- The marker-restoration epilogue of `resolveValue`'s string loop:
`<<<$vars.` back to `$vars.`, then every `>>>` removed. -/
def restoreMarkers (r : GoStr) : GoStr :=
  replaceAllGo (replaceAllGo r (gs "<<<" ++ dollarVars) dollarVars) (gs ">>>") []

/-- One iteration of the `for strings.Contains(result, "$vars.")` loop
in `resolveValue`: find the first `$vars.path` reference; a known
variable either replaces the whole string (recursing into
`resolveValue`, argument `resolveP`) or is substituted textually; an
unknown one is wrapped in `<<<`/`>>>` markers.  `strLoopP` continues
the loop.  Exits run the marker-restoration epilogue. -/
def strLoopStep (vars : Vars) (resolveP : TValue → Option TValue)
    (strLoopP : GoStr → Option TValue) (result : GoStr) : Option TValue :=
  if containsSub result dollarVars then
    let oldResult := result
    match indexOfSub result dollarVars with
    | none => some (.str (restoreMarkers result))
    | some start =>
      let endIdx := start + 6 +
        ((result.drop (start + 6)).takeWhile (fun c => isVarCharGo c || c = '.')).length
      let fullRef := (result.drop start).take (endIdx - start)
      let varPath := trimPrefixGo fullRef dollarVars
      match lookupAL vars varPath with
      | some resolved =>
        if result == fullRef then resolveP resolved
        else
          let result' := replaceFirstGo result fullRef (sprintGo resolved)
          if result' == oldResult then some (.str (restoreMarkers result'))
          else strLoopP result'
      | none =>
        let result' := replaceFirstGo result fullRef (gs "<<<" ++ fullRef ++ gs ">>>")
        if result' == oldResult then some (.str (restoreMarkers result'))
        else strLoopP result'
  else some (.str (restoreMarkers result))

mutual
/-- `resolveValue` body, given the string loop of the same fuel level:
strings without references pass through, strings with references enter
the loop, blocks and lists resolve their members, everything else
(`default`) passes through. -/
def resolveVStep (strLoopN : GoStr → Option TValue) : TValue → Option TValue
  | .str v => if !(containsSub v dollarVars) then some (.str v) else strLoopN v
  | .block b => (resolveEntriesStep strLoopN b).map .block
  | .list l => (resolveItemsStep strLoopN l).map .list
  | .nilv => some .nilv

/-- `resolveValue` over block entries. -/
def resolveEntriesStep (strLoopN : GoStr → Option TValue) :
    List (GoStr × TValue) → Option (List (GoStr × TValue))
  | [] => some []
  | (k, v) :: rest =>
    match resolveVStep strLoopN v with
    | none => none
    | some v' => (resolveEntriesStep strLoopN rest).map ((k, v') :: ·)

/-- `resolveValue` over list elements. -/
def resolveItemsStep (strLoopN : GoStr → Option TValue) :
    List TValue → Option (List TValue)
  | [] => some []
  | v :: rest =>
    match resolveVStep strLoopN v with
    | none => none
    | some v' => (resolveItemsStep strLoopN rest).map (v' :: ·)
end

/-- `resolveValue` and its string loop at each fuel level.  The Go
recursion between `resolveValue` and its replacement loop has no
structural bound (a cyclic `vars` mapping makes it infinite); fuel
counts loop iterations and whole-reference recursions, and `none`
means the computation exceeds every finite depth — the Go original
never returns on such inputs. -/
def resolvePack (vars : Vars) : Nat → ((TValue → Option TValue) × (GoStr → Option TValue))
  | 0 =>
    let sl0 : GoStr → Option TValue := fun _ => none
    (resolveVStep sl0, sl0)
  | n + 1 =>
    let sl := strLoopStep vars (resolvePack vars n).1 (resolvePack vars n).2
    (resolveVStep sl, sl)

/-- `resolveValue` with the given fuel. -/
def resolveValueF (fuel : Nat) (vars : Vars) (v : TValue) : Option TValue :=
  (resolvePack vars fuel).1 v

/-- The `maxIterations` bound of `resolveVariablesIteratively`. -/
def maxIterations : Nat := 100

/-- The iteration loop of `resolveVariablesIteratively`: re-resolve
every entry of `vars` against itself; stop successfully when no entry
changed, and report a circular dependency when the final permitted
iteration still changed something.  `r` counts the remaining
iterations (starting at `maxIterations`; `r = 1` is the Go loop's
`iteration == maxIterations-1`). -/
def varsIterLoop (F : Nat) : Nat → Vars → Option (Except GoStr Vars)
  | 0, vars => some (.ok vars)
  | r + 1, vars =>
    match vars.mapM (fun e => (resolveValueF F vars e.2).map (fun rv => (e.1, rv))) with
    | none => none
    | some newVars =>
      let hasChanges := (vars.zip newVars).any (fun p => !(valuesEqual p.1.2 p.2.2))
      if !hasChanges then some (.ok newVars)
      else if r + 1 == 1 then
        some (.error (gs "circular dependency detected: exceeded 100 iterations resolving variables"))
      else varsIterLoop F r newVars

/-- `resolveVariablesIteratively`: run the iteration loop on the vars
mapping, then resolve every node value of the document against the
settled mapping.  Returns the new document and the engine's updated
`vars`. -/
def resolveVariablesIterativelyF (F : Nat) (vars : Vars) (doc : TDoc) :
    Option (Except GoStr (TDoc × Vars)) :=
  match varsIterLoop F maxIterations vars with
  | none => none
  | some (.error e) => some (.error e)
  | some (.ok vars') =>
    match doc.mapM (fun n => (resolveValueF F vars' n.value).map
        (fun v => TNode.mk n.key n.typ v)) with
    | none => none
    | some nodes => some (.ok (nodes, vars'))

/-- `uniqueList`: keep the first occurrence of each string item;
non-string items are always kept. -/
def uniqueListGo : List GoStr → List TValue → List TValue
  | _, [] => []
  | seen, item :: rest =>
    match item with
    | .str s => if seen.contains s then uniqueListGo seen rest
                else item :: uniqueListGo (s :: seen) rest
    | _ => item :: uniqueListGo seen rest

mutual
/-- `mergeValues`: a `nil` overlay keeps the base; `shallow`/`replace`
strategies return the overlay; two blocks under `deep` merge
recursively; two lists merge by the list strategy (`append`, `unique`,
`replace`, or replace for anything else); everything else replaces. -/
def mergeValues (opts : TemplateOptions) (base : TValue) : TValue → TValue
  | .nilv => base
  | overlay =>
    if opts.mergeStrategy == gs "shallow" || opts.mergeStrategy == gs "replace" then overlay
    else
      match base, overlay with
      | .block bb, .block ob =>
        if opts.mergeStrategy == gs "deep" then .block (mergeOverlayEntries opts bb ob)
        else .block ob
      | .list bl, .list ol =>
        if opts.listStrategy == gs "append" then .list (bl ++ ol)
        else if opts.listStrategy == gs "unique" then .list (uniqueListGo [] (bl ++ ol))
        else .list ol
      | _, _ => overlay

/-- The overlay-entry loop of the deep block merge: start from a copy
of the base block and fold in overlay entries, merging where a key
already exists. -/
def mergeOverlayEntries (opts : TemplateOptions) (acc : List (GoStr × TValue)) :
    List (GoStr × TValue) → List (GoStr × TValue)
  | [] => acc
  | (k, v) :: rest =>
    match lookupAL acc k with
    | some existing => mergeOverlayEntries opts (putAL acc k (mergeValues opts existing v)) rest
    | none => mergeOverlayEntries opts (putAL acc k v) rest
end

/-- Delete a key from a Go map modelled as an association list. -/
def eraseAL {β : Type} (m : List (GoStr × β)) (k : GoStr) : List (GoStr × β) :=
  m.filter (fun e => !(e.1 == k))

/-- The overlay loop of `mergeDocuments`: emit one node per overlay
node, in overlay order — merged with the base node of the same key when
one exists (which is then deleted from the base map) and taken verbatim
otherwise.  Returns the emitted nodes and the remaining base map. -/
def mergePhase (opts : TemplateOptions) (m : List (GoStr × TNode)) :
    TDoc → TDoc × List (GoStr × TNode)
  | [] => ([], m)
  | onode :: rest =>
    match lookupAL m onode.key with
    | some bnode =>
      let merged := mergeValues opts bnode.value onode.value
      let pr := mergePhase opts (eraseAL m onode.key) rest
      (⟨onode.key, onode.typ, merged⟩ :: pr.1, pr.2)
    | none =>
      let pr := mergePhase opts m rest
      (onode :: pr.1, pr.2)

/-- `mergeDocuments`: index the base by key (later duplicates win),
emit overlay nodes (merging matches), then append the base nodes whose
keys were not consumed, in base order. -/
def mergeDocuments (opts : TemplateOptions) (base overlay : TDoc) : TDoc :=
  let baseMap := base.foldl (fun m node => putAL m node.key node) []
  let pr := mergePhase opts baseMap overlay
  pr.1 ++ base.filter (fun node => (lookupAL pr.2 node.key).isSome)

/-- `extractVars`: walk a `vars` block, storing scalar entries into the
mapping under dotted paths and recursing into nested blocks. -/
def extractVars (prefixArg : GoStr) : List (GoStr × TValue) → Vars → Vars
  | [], vars => vars
  | (k, v) :: rest, vars =>
    let path := if prefixArg.isEmpty then k else prefixArg ++ gs "." ++ k
    let vars' :=
      match v with
      | .block nested => extractVars path nested vars
      | _ => putAL vars path v
    extractVars prefixArg rest vars'

/-! ### Template engine state, includes and document processing.

`TemplateEngine` state is threaded explicitly: `options` and `vars`
persist across nested calls, `visited` is marked before a file is
opened and unmarked when the nested call returns (Go's `defer`).  The
filesystem is a mapping from paths to already-parsed documents; paths
are modelled as single-component relative names under one fixed working
directory, where `filepath.Abs` is injective renaming (modelled as the
identity), `filepath.Dir` yields `.` and `filepath.Join(".", p) = p`. -/

/-- The mutable `TemplateEngine` fields. -/
structure Engine where
  options : TemplateOptions
  vars : Vars
  visited : List GoStr

/-- `NewTemplateEngine()`. -/
def newEngine : Engine := ⟨defaultOptions, [], []⟩

/-- The filesystem: absolute path to parsed document. -/
abbrev FS := List (GoStr × TDoc)

/-- `filepath.Abs` for single-component names under a fixed working
directory (an injective renaming, modelled as the identity). -/
def absGo (p : GoStr) : GoStr := p

/-- `filepath.Dir` for single-component relative names. -/
def dirGo (_p : GoStr) : GoStr := gs "."

/-- `filepath.Join` for this path model. -/
def joinGo (dir p : GoStr) : GoStr :=
  if dir == gs "." then p else dir ++ gs "/" ++ p

/-- The template directives harvested by `processDocument`'s extraction
loop. -/
structure ExtractState where
  resultNodes : TDoc
  baseDoc : Option TDoc
  overlayNodes : TDoc
  patchNodes : List (GoStr × TValue)
  includeFiles : List GoStr
  allDocs : List TDoc

/-- The directive-extraction loop of `processDocument`: dispatch on the
node's type annotation.  `base` loads the base file at once (wrapping
failures), `overlay`/`include`/`patch` collect their payloads, `merge`
updates the engine's strategies, and every other node is kept as a
result node.  Payloads of the wrong dynamic type are silently
skipped. -/
def extractLoopStep (loadN : FS → GoStr → Engine → Option (Except GoStr (TDoc × Engine)))
    (fs : FS) : TDoc → ExtractState → Engine → Option (Except GoStr (ExtractState × Engine))
  | [], st, e => some (.ok (st, e))
  | node :: rest, st, e =>
    if node.typ == gs "base" then
      match node.value with
      | .str baseFile =>
        let basePath := joinGo e.options.baseDir baseFile
        match loadN fs basePath e with
        | none => none
        | some (.error err) =>
          some (.error (gs "failed to load base " ++ baseFile ++ gs ": " ++ err))
        | some (.ok (bdoc, e')) =>
          extractLoopStep loadN fs rest
            { st with baseDoc := some bdoc, allDocs := st.allDocs ++ [bdoc] } e'
      | _ => extractLoopStep loadN fs rest st e
    else if node.typ == gs "overlay" then
      match node.value with
      | .block b =>
        extractLoopStep loadN fs rest
          { st with overlayNodes := st.overlayNodes ++ [⟨node.key, node.typ, .block b⟩] } e
      | _ => extractLoopStep loadN fs rest st e
    else if node.typ == gs "include" then
      match node.value with
      | .list items =>
        let files := items.filterMap (fun it =>
          match it with
          | .str s => some s
          | _ => none)
        extractLoopStep loadN fs rest
          { st with includeFiles := st.includeFiles ++ files } e
      | _ => extractLoopStep loadN fs rest st e
    else if node.typ == gs "patch" then
      match node.value with
      | .block b =>
        extractLoopStep loadN fs rest { st with patchNodes := st.patchNodes ++ b } e
      | _ => extractLoopStep loadN fs rest st e
    else if node.typ == gs "merge" then
      match node.value with
      | .block b =>
        let ms := match lookupAL b (gs "strategy") with
          | some (.str s) => s
          | _ => e.options.mergeStrategy
        let ls := match lookupAL b (gs "list_strategy") with
          | some (.str s) => s
          | _ => e.options.listStrategy
        extractLoopStep loadN fs rest st
          { e with options := { e.options with mergeStrategy := ms, listStrategy := ls } }
      | _ => extractLoopStep loadN fs rest st e
    else
      extractLoopStep loadN fs rest { st with resultNodes := st.resultNodes ++ [node] } e

/-- The include-loading loop of `processDocument` (failures are wrapped
with the include file's name). -/
def includeLoopStep (loadN : FS → GoStr → Engine → Option (Except GoStr (TDoc × Engine)))
    (fs : FS) : List GoStr → List TDoc → Engine → Option (Except GoStr (List TDoc × Engine))
  | [], acc, e => some (.ok (acc, e))
  | f :: rest, acc, e =>
    match loadN fs (joinGo e.options.baseDir f) e with
    | none => none
    | some (.error err) =>
      some (.error (gs "failed to include " ++ f ++ gs ": " ++ err))
    | some (.ok (idoc, e')) => includeLoopStep loadN fs rest (acc ++ [idoc]) e'

/-- The variable-harvesting pass of `processDocument`: every `vars`
node whose value is a block contributes its entries. -/
def extractVarsFromDocs (docs : List TDoc) (vars0 : Vars) : Vars :=
  docs.foldl
    (fun vars d =>
      d.foldl
        (fun vars node =>
          if node.key == gs "vars" then
            match node.value with
            | .block b => extractVars [] b vars
            | _ => vars
          else vars)
        vars)
    vars0

/-- The in-place update of overlay application: merge the overlay value
into the first node with the same key (`none` when no node matches). -/
def overlayUpd (opts : TemplateOptions) (onode : TNode) : TDoc → Option TDoc
  | [] => none
  | t :: rest =>
    if t.key == onode.key then
      some ({ t with value := mergeValues opts t.value onode.value } :: rest)
    else (overlayUpd opts onode rest).map (t :: ·)

/-- Overlay application for one overlay node: merge into the matching
node, or append a new node (key and value only, no type annotation). -/
def applyOverlayNode (opts : TemplateOptions) (fd : TDoc) (onode : TNode) : TDoc :=
  match overlayUpd opts onode fd with
  | some fd' => fd'
  | none => fd ++ [⟨onode.key, [], onode.value⟩]

/-- `strings.SplitN(key, "[", 2)`: the part before the first `[` and
the part after it. -/
def splitN2Bracket (s : GoStr) : GoStr × GoStr :=
  (s.takeWhile (· ≠ '['), (s.dropWhile (· ≠ '[')).drop 1)

mutual
/-- `applyPatchToBlock`, value-level result (the store-level aliasing
behaviour of the same function is modelled separately below): walk the
dotted path inside nested blocks; a `key[*]` segment fans out over a
list value (replacing items wholesale when the path ends, recursing
into block items otherwise); a final plain segment assigns into the
block; navigation through a missing or non-block value is a no-op.
Within the engine's pipeline the documents are alias-free, so this
value-level result agrees with Go's in-place mutation. -/
def applyPatchBlockPure (b : List (GoStr × TValue)) :
    List GoStr → TValue → List (GoStr × TValue)
  | [], _ => b
  | key :: restPath, value =>
    if containsSub key (gs "[") then
      let baseKey := (splitN2Bracket key).1
      let selector := trimSuffixGo (splitN2Bracket key).2 (gs "]")
      match lookupAL b baseKey with
      | some (.list lst) =>
        if selector == gs "*" then
          putAL b baseKey (.list (patchStarPure restPath value lst))
        else b
      | _ => b
    else
      if restPath.isEmpty then putAL b key value
      else
        match lookupAL b key with
        | some (.block nb) => putAL b key (.block (applyPatchBlockPure nb restPath value))
        | _ => b
termination_by path _ => (path.length, 0, 0)

/-- The `selector == "*"` loop: with an exhausted path every item is
replaced by the value; otherwise block items are patched recursively
and other items are untouched. -/
def patchStarPure (restPath : List GoStr) (value : TValue) :
    List TValue → List TValue
  | [] => []
  | item :: more =>
    (if restPath.isEmpty then value
     else
       match item with
       | .block ib => .block (applyPatchBlockPure ib restPath value)
       | _ => item) :: patchStarPure restPath value more
termination_by items => (restPath.length, 1, items.length)
end

/-- `applyPatchPath` after the first path segment was matched against a
node key: the first matching node is patched (replaced outright for a
one-segment path, patched inside its block value otherwise) and the
loop returns. -/
def patchFindNode : TDoc → GoStr → List GoStr → TValue → TDoc
  | [], _, _, _ => []
  | node :: rest, key, restPath, value =>
    if node.key == key then
      (if restPath.isEmpty then { node with value := value }
       else
         match node.value with
         | .block b => { node with value := .block (applyPatchBlockPure b restPath value) }
         | _ => node) :: rest
    else node :: patchFindNode rest key restPath value

/-- `applyPatchPath`: an empty path is a no-op, otherwise find and
patch the first node matching the head segment. -/
def applyPatchPathPure (doc : TDoc) : List GoStr → TValue → TDoc
  | [], _ => doc
  | key :: restPath, value => patchFindNode doc key restPath value

/-- `applyPatches`: copy the node list, then apply each patch at its
dotted path. -/
def applyPatchesPure (doc : TDoc) (patches : List (GoStr × TValue)) : TDoc :=
  patches.foldl
    (fun result p => applyPatchPathPure result (splitOnChar '.' p.1) p.2) doc

/-- `processDocument` body, given `loadDocumentRaw` of the same fuel
level: extract directives (loading base files), load includes, harvest
variables from base, include and current documents, merge base,
includes and current nodes in order, apply overlays, apply patches
when present, and resolve variables.  (The Go slice
`allDocs[len(allDocs)-len(includeFiles)-1 : len(allDocs)-1]` is exactly
the include documents, and its `includeDoc != result` pointer guard
excludes nothing there.) -/
def procDocStep (F : Nat)
    (loadN : FS → GoStr → Engine → Option (Except GoStr (TDoc × Engine)))
    (fs : FS) (e : Engine) (doc : TDoc) : Option (Except GoStr (TDoc × Engine)) :=
  match extractLoopStep loadN fs doc ⟨[], none, [], [], [], []⟩ e with
  | none => none
  | some (.error err) => some (.error err)
  | some (.ok (st, e1)) =>
    match includeLoopStep loadN fs st.includeFiles [] e1 with
    | none => none
    | some (.error err) => some (.error err)
    | some (.ok (includeDocs, e2)) =>
      let allDocs := st.allDocs ++ includeDocs ++ [st.resultNodes]
      let e3 := { e2 with vars := extractVarsFromDocs allDocs e2.vars }
      let fd0 : TDoc := match st.baseDoc with
        | some b => b
        | none => []
      let fd1 := includeDocs.foldl (fun fd d => mergeDocuments e3.options fd d) fd0
      let fd2 := if st.resultNodes.isEmpty then fd1
                 else mergeDocuments e3.options fd1 st.resultNodes
      let fd3 := st.overlayNodes.foldl (fun fd onode => applyOverlayNode e3.options fd onode) fd2
      let fd4 := if st.patchNodes.isEmpty then fd3 else applyPatchesPure fd3 st.patchNodes
      match resolveVariablesIterativelyF F e3.vars fd4 with
      | none => none
      | some (.error err) => some (.error err)
      | some (.ok (fd5, vars')) => some (.ok (fd5, { e3 with vars := vars' }))

/-- `loadDocumentRaw` body, given `processDocument` of the previous
fuel level: fail on a path already in the visited set, mark it visited,
open and parse the file (here: look up its parsed document), switch the
base directory, process recursively, then restore the base directory
and unmark the path (Go's deferred cleanups). -/
def loadStep (procP : FS → Engine → TDoc → Option (Except GoStr (TDoc × Engine)))
    (fs : FS) (filename : GoStr) (e : Engine) : Option (Except GoStr (TDoc × Engine)) :=
  let absPath := absGo filename
  if e.visited.contains absPath then
    some (.error (gs "circular dependency detected: " ++ filename))
  else
    let e1 := { e with visited := absPath :: e.visited }
    match lookupAL fs absPath with
    | none =>
      some (.error (gs "failed to open file: open " ++ filename ++
        gs ": no such file or directory"))
    | some doc =>
      let oldBaseDir := e1.options.baseDir
      let e2 := { e1 with options := { e1.options with baseDir := dirGo absPath } }
      match procP fs e2 doc with
      | none => none
      | some (.error err) => some (.error err)
      | some (.ok (d, e3)) =>
        some (.ok (d, { e3 with
          options := { e3.options with baseDir := oldBaseDir },
          visited := e3.visited.erase absPath }))

/-- `loadDocumentRaw` and `processDocument` at each fuel level (fuel
counts nested file loads; `none` marks exhaustion and never occurs with
fuel exceeding the number of distinct files). -/
structure EngineFns where
  loadDoc : FS → GoStr → Engine → Option (Except GoStr (TDoc × Engine))
  procDoc : FS → Engine → TDoc → Option (Except GoStr (TDoc × Engine))

/-- The engine functions at a given fuel level: `processDocument` loads
files through `loadDocumentRaw` of the same level, which recurses into
`processDocument` of the previous level. -/
def engineAt (F : Nat) : Nat → EngineFns
  | 0 =>
    let load0 : FS → GoStr → Engine → Option (Except GoStr (TDoc × Engine)) :=
      fun _ _ _ => none
    { loadDoc := load0, procDoc := procDocStep F load0 }
  | n + 1 =>
    let load := loadStep (engineAt F n).procDoc
    { loadDoc := load, procDoc := procDocStep F load }

/-- `loadDocumentRaw` with the given fuels (`F` for variable
resolution, `fuel` for nested loads). -/
def loadDocumentRawF (F fuel : Nat) (fs : FS) (filename : GoStr) (e : Engine) :
    Option (Except GoStr (TDoc × Engine)) :=
  (engineAt F fuel).loadDoc fs filename e

/-- `processDocument` with the given fuels. -/
def processDocumentF (F fuel : Nat) (fs : FS) (e : Engine) (doc : TDoc) :
    Option (Except GoStr (TDoc × Engine)) :=
  (engineAt F fuel).procDoc fs e doc

/-- `ProcessTemplate`: its body coincides with `loadDocumentRaw` in
this model — check the visited set, mark, open and parse, switch the
base directory to the file's directory, process the document, then
unmark and restore (both Go functions perform exactly these steps and
produce the same errors). -/
def processTemplateF (F fuel : Nat) (fs : FS) (filename : GoStr) (e : Engine) :
    Option (Except GoStr (TDoc × Engine)) :=
  loadStep (engineAt F fuel).procDoc fs filename e

/-! ### Store-level model of patch application (`applyPatches`,
`applyPatchPath`, `applyPatchToBlock`).

Go `Block` values are `map[string]Value` references: `applyPatches`
copies the top-level `Nodes` slice, but the copied nodes still point at
the same underlying maps, and `applyPatchToBlock` writes through those
shared references.  To make that observable, blocks here live in a
store (Go's heap) and node values hold references into it. -/

/-- A heap-level value: scalar, reference to a block cell, list, or
`nil`. -/
inductive HValue where
  | str (s : GoStr)
  | blockRef (r : Nat)
  | list (l : List HValue)
  | nilv

/-- A document node holding heap-level values. -/
structure HNode where
  key : GoStr
  typ : GoStr
  value : HValue

/-- A document over heap-level values. -/
abbrev HDoc := List HNode

/-- The heap: block cell index to block contents. -/
abbrev Store := List (List (GoStr × HValue))

/-- Read a block cell. -/
def readCell (σ : Store) (r : Nat) : List (GoStr × HValue) := σ.getD r []

/-- Overwrite a block cell. -/
def writeCell (σ : Store) (r : Nat) (b : List (GoStr × HValue)) : Store := σ.set r b

/-- `applyPatchToBlock` body at the store level, given the previous
path-length level: an empty path is a no-op; a `key[*]` segment either
replaces every item of the list (path exhausted) or fans out into block
items; a plain final segment assigns into the block cell; deeper plain
segments follow the block reference. -/
def patchBlockStepH (applyP : Store → Nat → List GoStr → HValue → Store)
    (starP : Store → List HValue → List GoStr → HValue → Store)
    (σ : Store) (r : Nat) (path : List GoStr) (value : HValue) : Store :=
  match path with
  | [] => σ
  | key :: restPath =>
    if containsSub key (gs "[") then
      let baseKey := (splitN2Bracket key).1
      let selector := trimSuffixGo (splitN2Bracket key).2 (gs "]")
      match lookupAL (readCell σ r) baseKey with
      | some (.list lst) =>
        if selector == gs "*" then
          if restPath.isEmpty then
            writeCell σ r (putAL (readCell σ r) baseKey (.list (lst.map (fun _ => value))))
          else starP σ lst restPath value
        else σ
      | _ => σ
    else
      if restPath.isEmpty then writeCell σ r (putAL (readCell σ r) key value)
      else
        match lookupAL (readCell σ r) key with
        | some (.blockRef r2) => applyP σ r2 restPath value
        | _ => σ

/-- The `[*]` fan-out loop at the store level: patch every
block-reference item in sequence. -/
def patchStarStepH (applyN : Store → Nat → List GoStr → HValue → Store) :
    Store → List HValue → List GoStr → HValue → Store
  | σ, [], _, _ => σ
  | σ, item :: more, path, value =>
    let σ' := match item with
      | .blockRef r2 => applyN σ r2 path value
      | _ => σ
    patchStarStepH applyN σ' more path value

/-- `applyPatchToBlock` stratified by path length (each recursive call
shortens the path by one segment, so the path's length is always
sufficient fuel). -/
def patchPackH : Nat →
    ((Store → Nat → List GoStr → HValue → Store) ×
     (Store → List HValue → List GoStr → HValue → Store))
  | 0 =>
    let a0 : Store → Nat → List GoStr → HValue → Store := fun σ _ _ _ => σ
    (a0, patchStarStepH a0)
  | n + 1 =>
    let a := patchBlockStepH (patchPackH n).1 (patchPackH n).2
    (a, patchStarStepH a)

/-- `applyPatchToBlock` at the store level. -/
def applyPatchToBlockH (σ : Store) (r : Nat) (path : List GoStr) (value : HValue) : Store :=
  (patchPackH path.length).1 σ r path value

/-- `applyPatchPath`'s node loop at the store level: the first node
matching the head segment is replaced outright (one-segment path,
touching only the copied node list) or patched through its block
reference (mutating the store); then the loop returns. -/
def patchFindNodeH (σ : Store) : HDoc → GoStr → List GoStr → HValue → HDoc × Store
  | [], _, _, _ => ([], σ)
  | node :: rest, key, restPath, value =>
    if node.key == key then
      if restPath.isEmpty then ({ node with value := value } :: rest, σ)
      else
        match node.value with
        | .blockRef r => (node :: rest, applyPatchToBlockH σ r restPath value)
        | _ => (node :: rest, σ)
    else
      let pr := patchFindNodeH σ rest key restPath value
      (node :: pr.1, pr.2)

/-- `applyPatchPath` at the store level. -/
def applyPatchPathH (σ : Store) (doc : HDoc) : List GoStr → HValue → HDoc × Store
  | [], _ => (doc, σ)
  | key :: restPath, value => patchFindNodeH σ doc key restPath value

/-- `applyPatches` at the store level: the returned node list is a
fresh copy of the input's, but both lists' nodes reference the same
block cells in the store, which the patches mutate. -/
def applyPatchesH (σ : Store) (doc : HDoc) (patches : List (GoStr × HValue)) :
    HDoc × Store :=
  patches.foldl
    (fun pr p => applyPatchPathH pr.2 pr.1 (splitOnChar '.' p.1) p.2) (doc, σ)

/-! ### Auxiliary observers and concrete model inputs used by the
theorems below. -/

/-- Whether a parse outcome is a returned error. -/
def PRes.isErrB {α : Type} : PRes α → Bool
  | .err _ => true
  | _ => false

/-- The key token examined by `splitKeyValue`: the trimmed line up to
the first space or tab. -/
def keyTokenOf (line0 : GoStr) : GoStr :=
  let line := trimSpace line0
  line.take (match indexAnySpaceTab line with
    | some i => i
    | none => line.length)

/-- Where the key token of `splitKeyValue` ends in the trimmed line. -/
def keyEndOf (line0 : GoStr) : Nat :=
  match indexAnySpaceTab (trimSpace line0) with
  | some i => i
  | none => (trimSpace line0).length

/-- Read a scalar string field of a stored block. -/
def readStrField (σ : Store) (r : Nat) (k : GoStr) : Option GoStr :=
  match lookupAL (readCell σ r) k with
  | some (.str s) => some s
  | _ => none

/-- The mutually referential vars mapping of the specification's
value-cycle example: `vars.a = "$vars.b"`, `vars.b = "$vars.a"`. -/
def cycVars : Vars := [(gs "a", .str (gs "$vars.b")), (gs "b", .str (gs "$vars.a"))]

/-- Document of file `a.up` in the circular-include example: it
includes `b.up`. -/
def docIncB : TDoc := [⟨gs "inc", gs "include", .list [.str (gs "b.up")]⟩]

/-- Document of file `b.up` in the circular-include example: it
includes `a.up` back. -/
def docIncA : TDoc := [⟨gs "inc", gs "include", .list [.str (gs "a.up")]⟩]

/-- The two-file circular filesystem: `a.up` and `b.up` each include
the other. -/
def cycFS : FS := [(gs "a.up", docIncB), (gs "b.up", docIncA)]

/-- Duplicate-include example, top file: `a.up` includes `b.up` twice,
in two independent branches of the include tree. -/
def dupA : TDoc := [⟨gs "inc", gs "include", .list [.str (gs "b.up"), .str (gs "b.up")]⟩]

/-- Duplicate-include example, leaf `b.up`. -/
def dupB : TDoc := [⟨gs "bkey", [], .str (gs "bv")⟩]

/-- The duplicate-include filesystem: `b.up` is included twice by
`a.up`. -/
def dupFS : FS := [(gs "a.up", dupA), (gs "b.up", dupB)]

/-- Well-behavedness of a parse outcome relative to the scanner it was
run on: it is not a returned error, and on success the remaining lines
are a suffix of the input lines. -/
def NoErrSuf {α : Type} (res : PRes α) (sc : Sc) : Prop :=
  res.isErrB = false ∧ ∀ a rest, res = .ok a rest → rest.lines <:+ sc.lines



/-- A line that is not a top-level `!use` or `!lint` directive. -/
def noDirLine (l : GoStr) : Bool :=
  !(hasPrefixGo (trimSpace l) (gs "!use")) && !(hasPrefixGo (trimSpace l) (gs "!lint"))

/-- Well-behavedness of one fuel level of the parser pack: no function
returns an error (`parseNodes` on directive-free input only, since
`!use`/`!lint` directives do produce errors), and every success leaves
a suffix of the input lines. -/
def GoodParsers (P : Parsers) : Prop :=
  (∀ sc, (∀ l ∈ sc.lines, noDirLine l = true) → (P.pnodes sc).isErrB = false)
  ∧ (∀ sc line, NoErrSuf (P.pline sc line) sc)
  ∧ (∀ typ valPart lo sc, NoErrSuf (P.pvalue typ valPart lo sc) sc)
  ∧ (∀ line sc, NoErrSuf (P.pitem line sc) sc)
  ∧ (∀ acc sc, NoErrSuf (P.pblock acc sc) sc)
  ∧ (∀ acc sc, NoErrSuf (P.plist acc sc) sc)
  ∧ (∀ acc sc, NoErrSuf (P.ptable acc sc) sc)

/-! ## Theorems: string-library helper lemmas. -/

theorem indexOfSub_single_none {s : GoStr} {c : Char} :
    indexOfSub s [c] = none ↔ c ∉ s := by
  induction s with
  | nil => simp [indexOfSub, hasPrefixGo, List.isPrefixOf]
  | cons a t ih =>
    rw [indexOfSub]
    by_cases h : c = a
    · subst h
      simp [hasPrefixGo, List.isPrefixOf]
    · have hp : hasPrefixGo (a :: t) [c] = false := by
        simp [hasPrefixGo, List.isPrefixOf]
        exact h
      simp [hp, Option.map_eq_none', ih, h]

theorem indexOfSub_single_some {s : GoStr} {c : Char} {i : Nat}
    (h : indexOfSub s [c] = some i) : s.take i = s.takeWhile (· ≠ c) := by
  induction s generalizing i with
  | nil => simp
  | cons a t ih =>
    rw [indexOfSub] at h
    by_cases hc : c = a
    · subst hc
      have hp : hasPrefixGo (c :: t) [c] = true := by
        simp [hasPrefixGo, List.isPrefixOf]
      rw [hp] at h
      simp at h
      subst h
      simp [List.takeWhile_cons]
    · have hp : hasPrefixGo (a :: t) [c] = false := by
        simp [hasPrefixGo, List.isPrefixOf]
        exact hc
      rw [hp] at h
      simp only [Bool.false_eq_true, if_false] at h
      cases hidx : indexOfSub t [c] with
      | none => rw [hidx] at h; simp at h
      | some j =>
        rw [hidx] at h
        simp at h
        subst h
        have hne : a ≠ c := fun hx => hc hx.symm
        simp [List.takeWhile_cons, hne, ih hidx]

theorem containsSub_single_false {s : GoStr} {c : Char}
    (h : containsSub s [c] = false) : c ∉ s := by
  rw [containsSub] at h
  cases hidx : indexOfSub s [c] with
  | none => exact indexOfSub_single_none.mp hidx
  | some i => rw [hidx] at h; simp at h

theorem splitOn_single_of_not_mem {s : GoStr} {c : Char} (h : c ∉ s) :
    s.splitOn c = [s] := by
  apply List.splitOnP_eq_single
  intro x hx hbeq
  exact h (by rwa [eq_of_beq hbeq] at hx)

theorem dropWhile_eq_self_of_head_not {p : Char → Bool} {l : GoStr}
    (h : ∀ x, l.head? = some x → p x = false) : l.dropWhile p = l := by
  cases l with
  | nil => rfl
  | cons a t => simp [List.dropWhile_cons, h a rfl]

theorem trimSpace_idem (s : GoStr) : trimSpace (trimSpace s) = trimSpace s := by
  unfold trimSpace
  set p := isGoSpace with hp
  set u := s.dropWhile p with hu
  set w := u.reverse.dropWhile p with hw
  have hwdrop : w.dropWhile p = w := by
    apply dropWhile_eq_self_of_head_not
    intro x hx
    have hnot := List.head?_dropWhile_not p u.reverse
    rw [← hw] at hnot
    rw [hx] at hnot
    exact hnot
  have hrevdrop : w.reverse.dropWhile p = w.reverse := by
    apply dropWhile_eq_self_of_head_not
    intro x hx
    have hne : w.reverse ≠ [] := by
      intro hnil
      rw [hnil] at hx
      simp at hx
    have hpref : w.reverse <+: u := by
      have : w <:+ u.reverse := by rw [hw]; exact List.dropWhile_suffix p
      have h2 : w.reverse <+: u.reverse.reverse := List.reverse_prefix.mpr this
      rwa [List.reverse_reverse] at h2
    have hhead : w.reverse.head hne = u.head (by
        intro hnil
        exact hne (List.eq_nil_of_prefix_nil (hnil ▸ hpref))) :=
      List.IsPrefix.head hpref hne
    have hx' : x = w.reverse.head hne := by
      rw [List.head?_eq_head hne] at hx
      exact (Option.some_inj.mp hx).symm
    rw [hx', hhead]
    exact List.head_dropWhile_not p s _
  rw [hrevdrop, List.reverse_reverse, hwdrop]

/-- The value part computed by the line-oriented branch of
`splitKeyValue`, as the source writes it. -/
theorem splitKeyValueGo_lineOriented (line : GoStr)
    (hks : hasSuffixGo (keyTokenOf line) (gs ":") = true)
    (hnc : containsSub (keyTokenOf line) (gs "://") = false)
    (hlt : keyEndOf line < (trimSpace line).length) :
    splitKeyValueGo line =
      (trimSuffixGo (keyTokenOf line) (gs ":"),
       stripSurroundingQuotesGo
         (match indexOfSub (trimSpace ((trimSpace line).drop (keyEndOf line))) (gs "#") with
          | some i => trimSpace ((trimSpace ((trimSpace line).drop (keyEndOf line))).take i)
          | none => trimSpace ((trimSpace line).drop (keyEndOf line))),
       true) := by
  unfold keyTokenOf at hks hnc
  unfold keyEndOf at hlt
  unfold splitKeyValueGo
  simp only [hks, hnc, Bool.not_false, Bool.and_self, if_true, hlt, if_pos]
  rfl

/-- C6 (amended): on a line-oriented line with a value, the raw value
is truncated at the first `#` — whether or not that `#` lies inside
double quotes — and one layer of surrounding double quotes is then
stripped from the remaining (re-trimmed) text. -/
theorem c6_hash_truncation (line : GoStr)
    (hks : hasSuffixGo (keyTokenOf line) (gs ":") = true)
    (hnc : containsSub (keyTokenOf line) (gs "://") = false)
    (hlt : keyEndOf line < (trimSpace line).length) :
    (splitKeyValueGo line).2.1 =
      stripSurroundingQuotesGo (trimSpace
        ((trimSpace ((trimSpace line).drop (keyEndOf line))).takeWhile (· ≠ '#'))) := by
  rw [splitKeyValueGo_lineOriented line hks hnc hlt]
  set v := trimSpace ((trimSpace line).drop (keyEndOf line)) with hv
  cases h : indexOfSub v (gs "#") with
  | none =>
    have hmem : '#' ∉ v := indexOfSub_single_none.mp h
    have htw : v.takeWhile (· ≠ '#') = v := by
      apply List.takeWhile_eq_self_iff.mpr
      intro x hx
      simp only [decide_eq_true_eq]
      intro he
      exact hmem (he ▸ hx)
    rw [htw]
    have : trimSpace v = v := by rw [hv]; exact trimSpace_idem _
    rw [this]
  | some i =>
    have ht : v.take i = v.takeWhile (· ≠ '#') := indexOfSub_single_some h
    rw [← ht]

/-- C6 counterexample: in `name: "a # b"` the `#` sits inside the
surrounding double quotes, yet the code truncates there, leaving the
value `"a` (with a dangling quote) instead of the claimed `a # b`. -/
theorem c6_counterexample :
    splitKeyValueGo (gs "name: \"a # b\"") = (gs "name", gs "\"a", true) ∧
    gs "\"a" ≠ gs "a # b" := ⟨rfl, by decide⟩

/-- C6 witness. -/
theorem c6_hash_truncation_witness :
    (splitKeyValueGo (gs "k: v #c")).2.1 =
      stripSurroundingQuotesGo (trimSpace
        ((trimSpace ((trimSpace (gs "k: v #c")).drop (keyEndOf (gs "k: v #c")))).takeWhile
          (· ≠ '#'))) :=
  c6_hash_truncation (gs "k: v #c") (by decide) (by decide) (by decide)

/-- C7: line-oriented mode triggers exactly when the key token ends
with `:` and does not contain `://`; `website https://example.com`
stays a whitespace-delimited scalar, while `name: John Doe` parses as
key `name` with value `John Doe`. -/
theorem c7_line_oriented_detection :
    parseDocumentGo 3 [gs "website https://example.com"] =
      .ok [⟨gs "website", [], .str (gs "https://example.com")⟩] ⟨[], 1⟩ ∧
    parseDocumentGo 3 [gs "name: John Doe"] =
      .ok [⟨gs "name", [], .str (gs "John Doe")⟩] ⟨[], 1⟩ ∧
    ∀ line, (splitKeyValueGo line).2.2 =
      (hasSuffixGo (keyTokenOf line) (gs ":") &&
        !(containsSub (keyTokenOf line) (gs "://"))) := by
  refine ⟨rfl, rfl, ?_⟩
  intro line
  unfold splitKeyValueGo keyTokenOf
  by_cases h : (hasSuffixGo ((trimSpace line).take (match indexAnySpaceTab (trimSpace line) with
      | some i => i
      | none => (trimSpace line).length)) (gs ":") &&
      !(containsSub ((trimSpace line).take (match indexAnySpaceTab (trimSpace line) with
      | some i => i
      | none => (trimSpace line).length)) (gs "://"))) = true
  · simp only [h, if_true]
  · have h' : (hasSuffixGo ((trimSpace line).take (match indexAnySpaceTab (trimSpace line) with
      | some i => i
      | none => (trimSpace line).length)) (gs ":") &&
      !(containsSub ((trimSpace line).take (match indexAnySpaceTab (trimSpace line) with
      | some i => i
      | none => (trimSpace line).length)) (gs "://"))) = false :=
      Bool.eq_false_iff.mpr h
    simp only [h', Bool.false_eq_true, if_false]
    by_cases h2 : (match indexAnySpaceTab (trimSpace line) with
      | some i => i
      | none => (trimSpace line).length) < (trimSpace line).length
    · simp only [h2, if_pos]
    · simp [h2]

/-- C1 counterexample: the input opens a block with `a \x7b` and hits
end of input before any closing `\x7d`, yet `ParseDocument` succeeds —
no syntax error is returned and the partial block (with the gathered
entry `b = 1`) is the resulting Document. -/
theorem c1_counterexample :
    parseDocumentGo 3 [gs "a \x7b", gs "b 1"] =
      .ok [⟨gs "a", [], .block [(gs "b", .str (gs "1"))]⟩] ⟨[], 2⟩ ∧
    (parseDocumentGo 3 [gs "a \x7b", gs "b 1"]).isErrB = false := ⟨rfl, rfl⟩

/-- C9 counterexample: a `!use [` opener followed by a multiline list
does not make the list items the directive's namespaces; it yields a
`UseDirective` with empty namespaces, and the item line and closing
bracket parse as ordinary nodes. -/
theorem c9_counterexample :
    parseDocumentGo 5 [gs "!use [", gs "time", gs "]"] =
      .ok [⟨gs "_use", gs "directive", .useDir []⟩,
           ⟨gs "time", [], .str []⟩,
           ⟨gs "]", [], .str []⟩] ⟨[], 3⟩ ∧
    ([] : List GoStr) ≠ [gs "time"] := ⟨rfl, by decide⟩

/-- C9 (amended): an inline `!use [ns1, ns2, …]` list yields a `_use`
node annotated `directive` whose `UseDirective` namespaces are the
items in order; a `!use` line whose remainder does not begin with `[`
is rejected with the directive error (a multiline list opener `!use [`
is treated as an empty inline list, see the counterexample). -/
theorem c9_use_directive :
    parseDocumentGo 3 [gs "!use [time, id, faker, random]"] =
      .ok [⟨gs "_use", gs "directive",
            .useDir [gs "time", gs "id", gs "faker", gs "random"]⟩] ⟨[], 1⟩ ∧
    (∀ line, hasPrefixGo (trimSpace (trimPrefixGo (trimSpace line) (gs "!use"))) (gs "[") = false →
      parseUseDirectiveGo line =
        .error (gs "!use directive requires a list: !use [namespace1, namespace2]")) ∧
    parseUseDirectiveGo (gs "!use [") = .ok ⟨gs "_use", gs "directive", .useDir []⟩ := by
  refine ⟨rfl, ?_, rfl⟩
  intro line h
  unfold parseUseDirectiveGo
  simp only [h, Bool.false_eq_true, if_false]

/-- C9 witness. -/
theorem c9_use_directive_witness :
    parseUseDirectiveGo (gs "!use time") =
      .error (gs "!use directive requires a list: !use [namespace1, namespace2]") := by
  have h := c9_use_directive
  exact h.2.1 (gs "!use time") (by decide)

/-- C10 counterexample: a multiline fence whose type annotation parses
as the negative integer `-1` drives `dedentLines` into an
out-of-bounds slice: the Go program panics, so this directive-free
input yields no Document at all (and no returned error either). -/
theorem c10_counterexample :
    parseDocumentGo 4 [gs "k!-1 ```", gs "```"] = .panicked ∧
    ∀ doc rest, parseDocumentGo 4 [gs "k!-1 ```", gs "```"] ≠ .ok doc rest := by
  refine ⟨rfl, ?_⟩
  intro doc rest h
  rw [show parseDocumentGo 4 [gs "k!-1 ```", gs "```"] = .panicked from rfl] at h
  cases h

/-- C2: on the specification's value-cycle example the code does not
terminate.  `resolveValue` of `"$vars.b"` exceeds every finite
recursion depth (the Go original overflows the stack), so
`resolveVariablesIteratively` never reaches its iteration bound and
never reports the promised circular-dependency error. -/
theorem c2_value_cycle_diverges :
    (∀ F, resolveValueF F cycVars (.str (gs "$vars.b")) = none) ∧
    (∀ F doc, resolveVariablesIterativelyF F cycVars doc = none) := by
  have key : ∀ F, resolveValueF F cycVars (.str (gs "$vars.a")) = none ∧
      resolveValueF F cycVars (.str (gs "$vars.b")) = none := by
    intro F
    induction F with
    | zero => exact ⟨rfl, rfl⟩
    | succ n ih => exact ⟨ih.2, ih.1⟩
  refine ⟨fun F => (key F).2, ?_⟩
  intro F doc
  have hm : cycVars.mapM (fun e => (resolveValueF F cycVars e.2).map (fun rv => (e.1, rv))) =
      none := by
    have key2 : resolveValueF F ((gs "a", TValue.str (gs "$vars.b")) ::
        [(gs "b", TValue.str (gs "$vars.a"))]) (TValue.str (gs "$vars.b")) = none := (key F).2
    rw [show cycVars = (gs "a", TValue.str (gs "$vars.b")) :: [(gs "b", TValue.str (gs "$vars.a"))] from rfl]
    simp [List.mapM, List.mapM.loop, key2]
  have hloop : varsIterLoop F maxIterations cycVars = none := by
    rw [show maxIterations = 99 + 1 from rfl]
    rw [varsIterLoop]
    rw [hm]
  rw [resolveVariablesIterativelyF, hloop]

set_option maxHeartbeats 1000000 in
/-- C5: two files that include each other make `ProcessTemplate` fail
with the file-cycle error (wrapped by each include step); the same file
included twice, in two independent branches of the include tree, is
processed without error, because each visited mark is removed when its
nested call returns; and any load of a path already in the active
visited chain fails immediately with the circular-dependency error. -/
theorem c5_circular_include :
    processTemplateF 0 2 cycFS (gs "a.up") newEngine =
      some (.error (gs "failed to include b.up: failed to include a.up: circular dependency detected: a.up")) ∧
    processTemplateF 0 2 dupFS (gs "a.up") newEngine =
      some (.ok ([⟨gs "bkey", [], .str (gs "bv")⟩], newEngine)) ∧
    (∀ F fuel fs e p, e.visited.contains (absGo p) = true →
      processTemplateF F fuel fs p e =
        some (.error (gs "circular dependency detected: " ++ p))) := by
  refine ⟨rfl, rfl, ?_⟩
  intro F fuel fs e p h
  unfold processTemplateF loadStep
  simp only [h, if_true]

/-- C5 witness. -/
theorem c5_circular_include_witness :
    processTemplateF 0 0 [] (gs "x.up") ⟨defaultOptions, [], [gs "x.up"]⟩ =
      some (.error (gs "circular dependency detected: " ++ gs "x.up")) :=
  c5_circular_include.2.2 0 0 [] ⟨defaultOptions, [], [gs "x.up"]⟩ (gs "x.up") (by decide)

/-- Store preservation of the patch node-loop when the path has no
further segments: only the copied node list is touched. -/
theorem patchFindNodeH_nil_snd (σ : Store) (doc : HDoc) (key : GoStr) (v : HValue) :
    (patchFindNodeH σ doc key [] v).2 = σ := by
  induction doc with
  | nil => rfl
  | cons node rest ih =>
    unfold patchFindNodeH
    by_cases h : node.key == key
    · simp [h]
    · simp [h, ih]

/-- C3 counterexample: patching `server.host` leaves the copied node
list identical (still referencing block cell 0) but mutates that cell
in place: the block reachable from the input Document now reads `new`
where it read `old`. -/
theorem c3_counterexample :
    (applyPatchesH [[(gs "host", .str (gs "old"))]]
        [⟨gs "server", [], .blockRef 0⟩] [(gs "server.host", .str (gs "new"))]).1 =
      [⟨gs "server", [], .blockRef 0⟩] ∧
    readStrField (applyPatchesH [[(gs "host", .str (gs "old"))]]
        [⟨gs "server", [], .blockRef 0⟩] [(gs "server.host", .str (gs "new"))]).2
      0 (gs "host") = some (gs "new") ∧
    readStrField [[(gs "host", HValue.str (gs "old"))]] 0 (gs "host") = some (gs "old") ∧
    gs "new" ≠ gs "old" := ⟨rfl, rfl, rfl, by decide⟩

/-- C3 (amended): patches whose paths consist of a single segment never
touch the store — they only rewrite the copied top-level node list — so
the input Document and everything reachable from it stay unchanged;
multi-segment paths, by contrast, write through the shared block
references (see the counterexample). -/
theorem c3_single_segment_patches_preserve_store :
    ∀ (σ : Store) (doc : HDoc) (patches : List (GoStr × HValue)),
      (∀ p ∈ patches, containsSub p.1 (gs ".") = false) →
      (applyPatchesH σ doc patches).2 = σ := by
  intro σ doc patches
  induction patches generalizing σ doc with
  | nil => intro _; rfl
  | cons p rest ih =>
    intro h
    have hp := h p (List.mem_cons_self p rest)
    have hmem : '.' ∉ p.1 := containsSub_single_false hp
    have hsplit : splitOnChar '.' p.1 = [p.1] := splitOn_single_of_not_mem hmem
    have hstep : (applyPatchPathH σ doc (splitOnChar '.' p.1) p.2).2 = σ := by
      rw [hsplit]
      exact patchFindNodeH_nil_snd σ doc p.1 p.2
    calc (applyPatchesH σ doc (p :: rest)).2
        = (applyPatchesH (applyPatchPathH σ doc (splitOnChar '.' p.1) p.2).2
            (applyPatchPathH σ doc (splitOnChar '.' p.1) p.2).1 rest).2 := rfl
      _ = (applyPatchPathH σ doc (splitOnChar '.' p.1) p.2).2 :=
          ih _ _ (fun q hq => h q (List.mem_cons_of_mem _ hq))
      _ = σ := hstep

/-- C3 witness. -/
theorem c3_single_segment_patches_preserve_store_witness :
    (applyPatchesH [[(gs "host", HValue.str (gs "old"))]]
        [⟨gs "server", [], .blockRef 0⟩] [(gs "server", .str (gs "n"))]).2 =
      [[(gs "host", HValue.str (gs "old"))]] :=
  c3_single_segment_patches_preserve_store _ _ _ (by
    intro p hp
    simp only [List.mem_singleton] at hp
    subst hp
    decide)

/-- C4 counterexample: merging base `[a = 1, b = 2]` with overlay
`[b = 3]` yields nodes in the order `b, a` — the merged key `b` moves
to the overlay's position, so the base document's original relative
order (`a` before `b`) is not preserved. -/
theorem c4_counterexample :
    mergeDocuments defaultOptions
        [⟨gs "a", [], .str (gs "1")⟩, ⟨gs "b", [], .str (gs "2")⟩]
        [⟨gs "b", [], .str (gs "3")⟩] =
      [⟨gs "b", [], .str (gs "3")⟩, ⟨gs "a", [], .str (gs "1")⟩] ∧
    [gs "b", gs "a"] ≠ [gs "a", gs "b"] := ⟨rfl, by decide⟩

/-- Every piece produced by `splitOnP` consists of elements failing the
predicate. -/
theorem splitOnP_pieces {p : Char → Bool} :
    ∀ (l : GoStr), ∀ piece ∈ l.splitOnP p, ∀ x ∈ piece, p x = false := by
  intro l
  induction l with
  | nil =>
    intro piece hp x hx
    simp [List.splitOnP_nil] at hp
    subst hp
    cases hx
  | cons a t ih =>
    intro piece hp x hx
    rw [List.splitOnP_cons] at hp
    by_cases ha : p a
    · rw [if_pos ha] at hp
      rcases List.mem_cons.mp hp with h1 | h2
      · subst h1; cases hx
      · exact ih piece h2 x hx
    · rw [if_neg ha] at hp
      cases hsp : t.splitOnP p with
      | nil => exact absurd hsp (List.splitOnP_ne_nil _ t)
      | cons hd tl =>
        rw [hsp] at hp
        simp only [List.modifyHead] at hp
        rcases List.mem_cons.mp hp with h1 | h2
        · subst h1
          rcases List.mem_cons.mp hx with hx1 | hx2
          · subst hx1; exact Bool.eq_false_iff.mpr ha
          · exact ih hd (by rw [hsp]; exact List.mem_cons_self hd tl) x hx2
        · exact ih piece (by rw [hsp]; exact List.mem_cons_of_mem hd h2) x hx

/-- Pieces of `splitOnChar c` never contain `c`. -/
theorem splitOnChar_pieces {c : Char} {s : GoStr} :
    ∀ piece ∈ splitOnChar c s, c ∉ piece := by
  intro piece hp hmem
  have := splitOnP_pieces s piece hp c hmem
  simp at this

/-- An `Option`-valued `mapM` over a function that succeeds pointwise
is the `map` of the underlying results. -/
theorem mapM_option_loop {α β : Type} (fo : α → Option β) (g : α → β) :
    ∀ (xs : List α) (acc : List β), (∀ x ∈ xs, fo x = some (g x)) →
      List.mapM.loop fo xs acc = some (acc.reverse ++ xs.map g) := by
  intro xs
  induction xs with
  | nil => intro acc _; simp [List.mapM.loop]
  | cons x rest ih =>
    intro acc h
    rw [List.mapM.loop]
    rw [h x (List.mem_cons_self x rest)]
    show List.mapM.loop fo rest (g x :: acc) = _
    rw [ih (g x :: acc) (fun y hy => h y (List.mem_cons_of_mem x hy))]
    simp

/-- `mapM` with a pointwise-successful function. -/
theorem mapM_option_some {α β : Type} (fo : α → Option β) (g : α → β)
    (xs : List α) (h : ∀ x ∈ xs, fo x = some (g x)) :
    xs.mapM fo = some (xs.map g) := by
  rw [show xs.mapM fo = List.mapM.loop fo xs [] from rfl]
  rw [mapM_option_loop fo g xs [] h]
  rfl

/-- `dedentLines` on one line, for a natural count: never a panic; the
line loses its first `n` characters when long enough and is untouched
otherwise. -/
theorem dedentLineGo_nat (l : GoStr) (n : Nat) :
    dedentLineGo l n = some (if n ≤ l.length then l.drop n else l) := by
  unfold dedentLineGo
  by_cases h : n ≤ l.length
  · have h1 : (n : Int) ≤ (l.length : Int) := by exact_mod_cast h
    have h2 : ¬((n : Int) < 0) := by omega
    simp [h1, h2, h]
  · have h1 : ¬((n : Int) ≤ (l.length : Int)) := by exact_mod_cast h
    simp [h1, h]


/-- Dropping `k` characters from `k + m` repetitions leaves `m`. -/
theorem drop_replicate_char (k m : Nat) (c : Char) :
    (List.replicate (k + m) c).drop k = List.replicate m c := by
  induction k with
  | zero => simp
  | succ i ih =>
    rw [show i + 1 + m = (i + m) + 1 from by omega]
    rw [List.replicate_succ, List.drop_succ_cons, ih]

/-- C8: for every natural `n`, `dedentLines` never errors and removes
exactly `n` leading characters from every line of length at least `n`
while leaving shorter lines untouched (visible both in the joined
result and after re-splitting it into lines); it is idempotent at
`n = 0`, and for every `n ≥ 1` some text is changed by a second
application. -/
theorem c8_dedent_behaviour :
    (∀ (s : GoStr) (n : Nat), dedentLinesGo s n =
      some (joinChar '\n' ((splitOnChar '\n' s).map
        (fun l => if n ≤ l.length then l.drop n else l)))) ∧
    (∀ s : GoStr, dedentLinesGo s 0 = some s) ∧
    (∀ (s t : GoStr) (n : Nat), dedentLinesGo s n = some t →
      splitOnChar '\n' t = (splitOnChar '\n' s).map
        (fun l => if n ≤ l.length then l.drop n else l)) ∧
    (∀ n : Nat, 1 ≤ n → ∃ s t : GoStr,
      dedentLinesGo s n = some t ∧ dedentLinesGo t n ≠ some t) := by
  have main : ∀ (s : GoStr) (n : Nat), dedentLinesGo s n =
      some (joinChar '\n' ((splitOnChar '\n' s).map
        (fun l => if n ≤ l.length then l.drop n else l))) := by
    intro s n
    unfold dedentLinesGo
    rw [mapM_option_some (fun l => dedentLineGo l (n : Int))
      (fun l => if n ≤ l.length then l.drop n else l) (splitOnChar '\n' s)
      (fun l _ => dedentLineGo_nat l n)]
    rfl
  have resplit : ∀ (s : GoStr) (n : Nat),
      splitOnChar '\n' (joinChar '\n' ((splitOnChar '\n' s).map
        (fun l => if n ≤ l.length then l.drop n else l))) =
      (splitOnChar '\n' s).map (fun l => if n ≤ l.length then l.drop n else l) := by
    intro s n
    apply List.splitOn_intercalate
    · intro l hl
      rcases List.mem_map.mp hl with ⟨piece, hpiece, hEq⟩
      have hnot := splitOnChar_pieces piece hpiece
      subst hEq
      by_cases hle : n ≤ piece.length
      · simp only [hle, if_pos]
        intro hmem
        exact hnot (List.mem_of_mem_drop hmem)
      · simp only [hle, if_neg]
        exact hnot
    · intro hnil
      have hn := List.map_eq_nil_iff.mp hnil
      exact List.splitOnP_ne_nil _ s hn
  have hsplitrep : ∀ (m : Nat), splitOnChar '\n' (List.replicate m 'a') =
      [List.replicate m 'a'] := by
    intro m
    rw [splitOnChar, List.splitOn]
    apply List.splitOnP_eq_single
    intro x hx
    have hxa := (List.mem_replicate.mp hx).2
    subst hxa
    decide
  have hjoin1 : ∀ (l : GoStr), joinChar '\n' [l] = l := by
    intro l
    simp [joinChar, List.intercalate]
  refine ⟨main, ?_, ?_, ?_⟩
  · intro s
    have h0 := main s 0
    simp only [Nat.cast_zero] at h0
    rw [h0]
    have hmap : (splitOnChar '\n' s).map (fun l => if 0 ≤ l.length then l.drop 0 else l) =
        splitOnChar '\n' s := by
      simp [Nat.zero_le, List.drop_zero]
    rw [hmap]
    rw [show joinChar '\n' (splitOnChar '\n' s) = ['\n'].intercalate (s.splitOn '\n') from rfl]
    rw [List.intercalate_splitOn]
  · intro s t n h
    rw [main s n] at h
    have ht := Option.some_inj.mp h
    rw [← ht]
    exact resplit s n
  · intro n hn
    refine ⟨List.replicate (2 * n) 'a', List.replicate n 'a', ?_, ?_⟩
    · rw [main]
      rw [hsplitrep (2 * n)]
      have hle : n ≤ (List.replicate (2 * n) 'a').length := by
        rw [List.length_replicate]; omega
      simp only [List.map_cons, List.map_nil, hle, if_pos]
      have hdrop : (List.replicate (2 * n) 'a').drop n = List.replicate n 'a' := by
        rw [two_mul]
        exact drop_replicate_char n n 'a'
      rw [hdrop, hjoin1]
    · intro hcontra
      rw [main] at hcontra
      rw [hsplitrep n] at hcontra
      have hle : n ≤ (List.replicate n 'a').length := by
        rw [List.length_replicate]
      simp only [List.map_cons, List.map_nil, hle, if_pos] at hcontra
      have hdnil : (List.replicate n 'a').drop n = [] := by
        have hd := List.drop_length (List.replicate n 'a')
        rwa [List.length_replicate] at hd
      rw [hdnil] at hcontra
      rw [hjoin1] at hcontra
      have hnil : ([] : GoStr) = List.replicate n 'a' := Option.some_inj.mp hcontra
      have hz : 0 = n := by
        have hlen := congrArg List.length hnil
        simpa using hlen
      omega

/-- C8 witness. -/
theorem c8_dedent_behaviour_witness :
    (dedentLinesGo (gs "aaaaaa") 3 = some (joinChar '\n' ((splitOnChar '\n' (gs "aaaaaa")).map
      (fun l => if 3 ≤ l.length then l.drop 3 else l)))) ∧
    (splitOnChar '\n' (gs "b") = (splitOnChar '\n' (gs "ab")).map
      (fun l => if 1 ≤ l.length then l.drop 1 else l)) ∧
    (∃ s t : GoStr, dedentLinesGo s 3 = some t ∧ dedentLinesGo t 3 ≠ some t) :=
  ⟨c8_dedent_behaviour.1 (gs "aaaaaa") 3,
   c8_dedent_behaviour.2.2.1 (gs "ab") (gs "b") 1 rfl,
   c8_dedent_behaviour.2.2.2 3 (by decide)⟩

/-- Lookup through one association-list entry. -/
theorem lookupAL_cons {β : Type} (e : GoStr × β) (rest : List (GoStr × β)) (q : GoStr) :
    lookupAL (e :: rest) q = if e.1 = q then some e.2 else lookupAL rest q := by
  unfold lookupAL
  by_cases h : e.1 = q
  · rw [List.find?_cons_of_pos _ (by simp [h])]
    simp [h]
  · rw [List.find?_cons_of_neg _ (by simp [h])]
    simp [h]

/-- Lookup after the overwrite pass of `putAL`. -/
theorem lookupAL_map_upd {β : Type} (m : List (GoStr × β)) (k : GoStr) (v : β) (q : GoStr) :
    lookupAL (m.map (fun e => if e.1 == k then (e.1, v) else e)) q =
      if q = k then (lookupAL m k).map (fun _ => v) else lookupAL m q := by
  induction m with
  | nil => by_cases h : q = k <;> simp [lookupAL, List.find?, h]
  | cons e rest ih =>
    simp only [beq_iff_eq] at ih ⊢
    by_cases hek : e.1 = k
    · by_cases heq : e.1 = q
      · by_cases hqk : q = k
        · simp [lookupAL_cons, hek, heq, hqk]
        · exact absurd (heq.symm.trans hek) hqk
      · by_cases hqk : q = k
        · exact absurd (hek.trans hqk.symm) heq
        · have hkq : ¬(k = q) := fun h => heq (hek.trans h)
          simp [lookupAL_cons, hek, hqk, hkq, ih]
    · by_cases heq : e.1 = q
      · by_cases hqk : q = k
        · exact absurd (heq.trans hqk) hek
        · simp [lookupAL_cons, hek, heq, hqk]
      · by_cases hqk : q = k
        · subst hqk
          simp [lookupAL_cons, hek, heq, ih]
        · simp [lookupAL_cons, hek, heq, hqk, ih]

/-- `putAL` commutes with a head entry of a different key. -/
theorem putAL_cons_ne {β : Type} (e : GoStr × β) (rest : List (GoStr × β)) (k : GoStr) (v : β)
    (hek : ¬(e.1 = k)) : putAL (e :: rest) k v = e :: putAL rest k v := by
  unfold putAL
  rw [List.find?_cons_of_neg _ (by simp [hek])]
  by_cases h : (rest.find? (fun x => x.1 == k)).isSome
  · rw [if_pos h, if_pos h, List.map_cons]
    rw [show (if e.1 == k then (e.1, v) else e) = e from by simp [hek]]
  · rw [if_neg h, if_neg h]
    rfl

/-- Map assignment and lookup: `m[k] = v` makes `k` read `v` and
leaves every other key unchanged. -/
theorem lookupAL_putAL {β : Type} (m : List (GoStr × β)) (k : GoStr) (v : β) (q : GoStr) :
    lookupAL (putAL m k v) q = if q = k then some v else lookupAL m q := by
  induction m with
  | nil =>
    unfold putAL
    simp only [List.find?_nil, Option.isSome_none, Bool.false_eq_true, if_false, List.nil_append]
    rw [lookupAL_cons]
    by_cases h : q = k
    · rw [if_pos h, if_pos (h.symm)]
    · rw [if_neg h, if_neg (fun hh => h hh.symm)]
  | cons e rest ih =>
    by_cases hek : e.1 = k
    · have hfind : ((e :: rest).find? (fun x => x.1 == k)).isSome := by
        rw [List.find?_cons_of_pos _ (by simp [hek])]
        rfl
      unfold putAL
      rw [if_pos hfind, List.map_cons]
      rw [show (if e.1 == k then (e.1, v) else e) = (e.1, v) from by simp [hek]]
      rw [lookupAL_cons, lookupAL_map_upd, lookupAL_cons]
      by_cases heq : e.1 = q
      · rw [if_pos heq]
        rw [if_pos (heq.symm.trans hek)]
      · rw [if_neg heq]
        by_cases hqk : q = k
        · exact absurd (hek.trans hqk.symm) heq
        · rw [if_neg hqk, if_neg hqk, if_neg heq]
    · rw [putAL_cons_ne e rest k v hek, lookupAL_cons, lookupAL_cons, ih]
      by_cases heq : e.1 = q
      · rw [if_pos heq, if_pos heq]
        rw [if_neg (fun h : q = k => hek (heq.trans h))]
      · rw [if_neg heq, if_neg heq]
/-- Go `delete(m, k)`: `k` reads `none` afterwards, other keys are
unchanged. -/
theorem lookupAL_eraseAL {β : Type} (m : List (GoStr × β)) (k q : GoStr) :
    lookupAL (eraseAL m k) q = if q = k then none else lookupAL m q := by
  induction m with
  | nil => by_cases h : q = k <;> simp [eraseAL, lookupAL, h]
  | cons e rest ih =>
    by_cases hek : e.1 = k
    · have : eraseAL (e :: rest) k = eraseAL rest k := by
        simp [eraseAL, List.filter_cons, hek]
      rw [this, ih]
      by_cases hqk : q = k
      · rw [if_pos hqk, if_pos hqk]
      · rw [if_neg hqk, if_neg hqk, lookupAL_cons,
          if_neg (show ¬ e.1 = q from fun h => hqk (h.symm.trans hek))]
    · have : eraseAL (e :: rest) k = e :: eraseAL rest k := by
        simp [eraseAL, List.filter_cons, hek]
      rw [this, lookupAL_cons, ih, lookupAL_cons]
      by_cases heq : e.1 = q
      · have hqk : ¬ q = k := fun h => hek (heq.trans h)
        rw [if_pos heq, if_neg hqk, if_pos heq]
      · rw [if_neg heq]
        by_cases hqk : q = k
        · rw [if_pos hqk, if_pos hqk]
        · rw [if_neg hqk, if_neg hqk, if_neg heq]

/-- The overlay loop of `mergeDocuments` emits exactly the overlay keys,
in overlay order. -/
theorem mergePhase_fst_keys (opts : TemplateOptions) (m : List (GoStr × TNode))
    (ovl : TDoc) : (mergePhase opts m ovl).1.map TNode.key = ovl.map TNode.key := by
  induction ovl generalizing m with
  | nil => rfl
  | cons onode rest ih =>
    rw [mergePhase]
    cases h : lookupAL m onode.key with
    | some bnode => simp only [List.map_cons, ih]
    | none => simp only [List.map_cons, ih]

/-- After the overlay loop, the residual base map answers `none` for
every overlay key and is unchanged elsewhere. -/
theorem mergePhase_snd_lookup (opts : TemplateOptions) (m : List (GoStr × TNode))
    (ovl : TDoc) (q : GoStr) :
    lookupAL (mergePhase opts m ovl).2 q =
      if q ∈ ovl.map TNode.key then none else lookupAL m q := by
  induction ovl generalizing m with
  | nil => simp [mergePhase]
  | cons onode rest ih =>
    rw [mergePhase]
    cases h : lookupAL m onode.key with
    | some bnode =>
      simp only [ih, lookupAL_eraseAL, List.map_cons, List.mem_cons]
      by_cases h1 : q ∈ rest.map TNode.key
      · rw [if_pos h1, if_pos (Or.inr h1)]
      · rw [if_neg h1]
        by_cases h2 : q = onode.key
        · rw [if_pos h2, if_pos (Or.inl h2)]
        · rw [if_neg h2, if_neg (by rintro (hx | hx); exact h2 hx; exact h1 hx)]
    | none =>
      simp only [ih, List.map_cons, List.mem_cons]
      by_cases h1 : q ∈ rest.map TNode.key
      · rw [if_pos h1, if_pos (Or.inr h1)]
      · rw [if_neg h1]
        by_cases h2 : q = onode.key
        · rw [if_pos (Or.inl h2), h2, h]
        · rw [if_neg (by rintro (hx | hx); exact h2 hx; exact h1 hx)]

/-- The base-indexing fold of `mergeDocuments`: a key is present in the
built map iff it was already present or occurs in the folded document. -/
theorem lookupAL_baseFold (base : TDoc) (m : List (GoStr × TNode)) (q : GoStr) :
    (lookupAL (base.foldl (fun m node => putAL m node.key node) m) q).isSome
      ↔ (lookupAL m q).isSome ∨ q ∈ base.map TNode.key := by
  induction base generalizing m with
  | nil => simp
  | cons n rest ih =>
    rw [List.foldl_cons, ih, lookupAL_putAL]
    by_cases h : q = n.key
    · simp [h]
    · simp [h]

/-- `uniqueList` only drops items, so the result is a sublist of the
input (relative order is preserved). -/
theorem uniqueListGo_sublist (l : List TValue) :
    ∀ seen, List.Sublist (uniqueListGo seen l) l := by
  induction l with
  | nil => intro seen; simp [uniqueListGo]
  | cons item rest ih =>
    intro seen
    match item with
    | .str s =>
      by_cases h : seen.contains s
      · have e : uniqueListGo seen (TValue.str s :: rest) = uniqueListGo seen rest := by
          simp only [uniqueListGo]; rw [if_pos h]
        rw [e]; exact (ih seen).cons _
      · have e : uniqueListGo seen (TValue.str s :: rest)
            = TValue.str s :: uniqueListGo (s :: seen) rest := by
          simp only [uniqueListGo]; rw [if_neg h]
        rw [e]; exact (ih (s :: seen)).cons₂ _
    | .nilv => exact (ih seen).cons₂ _
    | .block b => exact (ih seen).cons₂ _
    | .list xs => exact (ih seen).cons₂ _
/-- C4 (amended): `mergeDocuments` does NOT keep the base document's
nodes first; it emits overlay nodes in overlay order (each merged with
the matching base node) and only then the unmatched base nodes, those
in their original relative order.  Within lists, order is preserved
strategy-wise: `append` concatenates base then overlay items, `unique`
filters that concatenation to a sublist (first occurrences kept, order
preserved), and any other list strategy replaces wholesale with the
overlay list. -/
theorem c4_merge_order (opts : TemplateOptions) (base ovl : TDoc) :
    (mergeDocuments opts base ovl).map TNode.key
      = ovl.map TNode.key
        ++ (base.filter (fun n => decide (n.key ∉ ovl.map TNode.key))).map TNode.key
    ∧ (∀ seen l, List.Sublist (uniqueListGo seen l) l)
    ∧ (∀ bl ol, (opts.mergeStrategy == gs "shallow") = false →
        (opts.mergeStrategy == gs "replace") = false →
        opts.listStrategy = gs "append" →
        mergeValues opts (.list bl) (.list ol) = .list (bl ++ ol))
    ∧ (∀ bl ol, (opts.mergeStrategy == gs "shallow") = false →
        (opts.mergeStrategy == gs "replace") = false →
        opts.listStrategy = gs "unique" →
        mergeValues opts (.list bl) (.list ol) = .list (uniqueListGo [] (bl ++ ol)))
    ∧ (∀ bl ol, (opts.mergeStrategy == gs "shallow") = false →
        (opts.mergeStrategy == gs "replace") = false →
        (opts.listStrategy == gs "append") = false →
        (opts.listStrategy == gs "unique") = false →
        mergeValues opts (.list bl) (.list ol) = .list ol) := by
  have elist : ∀ bl ol, mergeValues opts (.list bl) (.list ol)
      = if opts.mergeStrategy == gs "shallow" || opts.mergeStrategy == gs "replace"
        then .list ol
        else if opts.listStrategy == gs "append" then .list (bl ++ ol)
        else if opts.listStrategy == gs "unique" then .list (uniqueListGo [] (bl ++ ol))
        else .list ol := fun bl ol => rfl
  refine ⟨?_, fun seen l => uniqueListGo_sublist l seen, ?_, ?_, ?_⟩
  · have h1 : mergeDocuments opts base ovl
        = (mergePhase opts (base.foldl (fun m node => putAL m node.key node) []) ovl).1
          ++ base.filter (fun node =>
              (lookupAL (mergePhase opts
                (base.foldl (fun m node => putAL m node.key node) []) ovl).2
                node.key).isSome) := rfl
    rw [h1, List.map_append, mergePhase_fst_keys]
    refine congrArg _ (congrArg _ (List.filter_congr ?_))
    intro n hn
    rw [mergePhase_snd_lookup]
    by_cases hm : n.key ∈ ovl.map TNode.key
    · rw [if_pos hm]; simp [hm]
    · rw [if_neg hm]
      have hsome : (lookupAL (base.foldl (fun m node => putAL m node.key node) [])
          n.key).isSome := by
        rw [lookupAL_baseFold]
        exact Or.inr (List.mem_map_of_mem _ hn)
      simp [hsome, hm]
  · intro bl ol h1 h2 h3
    rw [elist, h1, h2, h3]
    simp
  · intro bl ol h1 h2 h3
    rw [elist, h1, h2, h3]
    simp [show (gs "unique" == gs "append") = false from by decide]
  · intro bl ol h1 h2 h3 h4
    rw [elist, h1, h2, h3, h4]
    simp

/-- C4 witness: a concrete merge showing overlay-first node order
(`b`, `c` from the overlay, then unmatched `a` from the base) and a
concrete `append`-strategy list merge. -/
theorem c4_merge_order_witness :
    (mergeDocuments defaultOptions
        [⟨gs "a", gs "kv", TValue.str (gs "1")⟩, ⟨gs "b", gs "kv", TValue.str (gs "2")⟩]
        [⟨gs "b", gs "kv", TValue.str (gs "3")⟩,
          ⟨gs "c", gs "kv", TValue.str (gs "4")⟩]).map TNode.key
      = [gs "b", gs "c", gs "a"]
    ∧ mergeValues defaultOptions (.list [TValue.str (gs "x")]) (.list [TValue.str (gs "y")])
      = .list [TValue.str (gs "x"), TValue.str (gs "y")] := by
  obtain ⟨h1, _, h3, _, _⟩ := c4_merge_order defaultOptions
    [⟨gs "a", gs "kv", TValue.str (gs "1")⟩, ⟨gs "b", gs "kv", TValue.str (gs "2")⟩]
    [⟨gs "b", gs "kv", TValue.str (gs "3")⟩, ⟨gs "c", gs "kv", TValue.str (gs "4")⟩]
  constructor
  · rw [h1]; rfl
  · exact h3 _ _ (by decide) (by decide) rfl
/-- A success that leaves a suffix of the input is well behaved. -/
theorem noErrSuf_ok_of_suffix {α : Type} (a : α) (sc' sc : Sc)
    (h : sc'.lines <:+ sc.lines) : NoErrSuf (PRes.ok a sc') sc :=
  ⟨rfl, fun b rest hb => by cases hb; exact h⟩

/-- A panic is not a returned error. -/
theorem noErrSuf_panicked {α : Type} (sc : Sc) : NoErrSuf (PRes.panicked : PRes α) sc :=
  ⟨rfl, fun a r hr => PRes.noConfusion hr⟩

/-- Fuel exhaustion is not a returned error. -/
theorem noErrSuf_fuelOut {α : Type} (sc : Sc) : NoErrSuf (PRes.fuelOut : PRes α) sc :=
  ⟨rfl, fun a r hr => PRes.noConfusion hr⟩

/-- Case split on a conditional outcome. -/
theorem noErrSuf_ite {α : Type} {c : Prop} [Decidable c] {r1 r2 : PRes α} {sc : Sc}
    (h1 : c → NoErrSuf r1 sc) (h2 : ¬c → NoErrSuf r2 sc) :
    NoErrSuf (if c then r1 else r2) sc := by
  by_cases h : c
  · rw [if_pos h]; exact h1 h
  · rw [if_neg h]; exact h2 h

/-- The multiline-collecting loop leaves a suffix of its input lines. -/
theorem multilineLoop_suffix (ls : List GoStr) : ∀ n, (multilineLoop ls n).2.lines <:+ ls := by
  induction ls with
  | nil => intro n; exact List.suffix_refl _
  | cons l rest ih =>
    intro n
    rw [multilineLoop]
    by_cases h : trimSpace l = gs "```"
    · rw [if_pos h]
      exact List.suffix_cons l rest
    · rw [if_neg h]
      rcases hml : multilineLoop rest (n + 1) with ⟨content, sc'⟩
      have := ih (n + 1)
      rw [hml] at this
      exact this.trans (List.suffix_cons l rest)

/-- The `rows` block loop of `parseTable` leaves a suffix of its input
lines. -/
theorem parseBlockOfListsGo_suffix (ls : List GoStr) :
    ∀ n, (parseBlockOfListsGo ls n).2.lines <:+ ls := by
  induction ls with
  | nil => intro n; exact List.suffix_refl _
  | cons l rest ih =>
    intro n
    rw [parseBlockOfListsGo]
    by_cases h1 : trimSpace l = gs "\x7d"
    · rw [if_pos h1]
      exact List.suffix_cons l rest
    · rw [if_neg h1]
      by_cases h2 : (skipEmptyLineGo (trimSpace l) || skipCommentGo (trimSpace l)) = true
      · rw [if_pos h2]
        exact (ih (n + 1)).trans (List.suffix_cons l rest)
      · rw [if_neg h2]
        by_cases h3 : hasPrefixGo (trimSpace l) (gs "[") = true
        · rw [if_pos h3]
          rcases hbl : parseBlockOfListsGo rest (n + 1) with ⟨rows, sc'⟩
          have := ih (n + 1)
          rw [hbl] at this
          exact this.trans (List.suffix_cons l rest)
        · rw [if_neg h3]
          exact (ih (n + 1)).trans (List.suffix_cons l rest)

/-- `parseMultiline` never returns an error (it succeeds or panics) and
on success leaves a suffix of the input lines. -/
theorem parseMultilineGo_good (typ line : GoStr) (sc : Sc) :
    NoErrSuf (parseMultilineGo typ line sc) sc := by
  unfold parseMultilineGo
  rcases hml : multilineLoop sc.lines sc.lineNum with ⟨content, sc'⟩
  have hsuf : sc'.lines <:+ sc.lines := by
    have := multilineLoop_suffix sc.lines sc.lineNum
    rw [hml] at this
    exact this
  refine noErrSuf_ite (fun ht => ?_) (fun ht => ?_)
  · show NoErrSuf (match atoiGo typ with
      | some d =>
        match dedentLinesGo (joinChar '\n' content) d with
        | some t => PRes.ok t sc'
        | none => PRes.panicked
      | none => PRes.ok (joinChar '\n' content) sc') sc
    cases ha : atoiGo typ with
    | some d =>
      show NoErrSuf (match dedentLinesGo (joinChar '\n' content) d with
        | some t => PRes.ok t sc'
        | none => PRes.panicked) sc
      cases hd : dedentLinesGo (joinChar '\n' content) d with
      | some t => exact noErrSuf_ok_of_suffix _ _ _ hsuf
      | none => exact noErrSuf_panicked _
    | none => exact noErrSuf_ok_of_suffix _ _ _ hsuf
  · exact noErrSuf_ok_of_suffix _ _ _ hsuf

/-- `parseValue` is well behaved whenever its block-, list- and
table-parsing callees are. -/
theorem parseValueStep_good
    (pblockN : List (GoStr × PValue) → Sc → PRes (List (GoStr × PValue)))
    (plistN : List PValue → Sc → PRes (List PValue))
    (ptableN : List (GoStr × PValue) → Sc → PRes (List (GoStr × PValue)))
    (hb : ∀ acc sc, NoErrSuf (pblockN acc sc) sc)
    (hl : ∀ acc sc, NoErrSuf (plistN acc sc) sc)
    (ht : ∀ acc sc, NoErrSuf (ptableN acc sc) sc)
    (typ valPart : GoStr) (lo : Bool) (sc : Sc) :
    NoErrSuf (parseValueStep pblockN plistN ptableN typ valPart lo sc) sc := by
  unfold parseValueStep
  by_cases h1 : hasPrefixGo valPart (gs "```") = true
  · rw [if_pos h1]
    have hm := parseMultilineGo_good typ valPart sc
    cases hmr : parseMultilineGo typ valPart sc with
    | ok t sc' => exact noErrSuf_ok_of_suffix _ _ _ (hm.2 t sc' hmr)
    | err e => exact absurd hm.1 (by rw [hmr]; simp [PRes.isErrB])
    | panicked => exact noErrSuf_panicked _
    | fuelOut => exact noErrSuf_fuelOut _
  · rw [if_neg h1]
    by_cases h2 : valPart = gs "\x7b"
    · rw [if_pos h2]
      have hm := hb [] sc
      cases hmr : pblockN [] sc with
      | ok b sc' => exact noErrSuf_ok_of_suffix _ _ _ (hm.2 b sc' hmr)
      | err e => exact absurd hm.1 (by rw [hmr]; simp [PRes.isErrB])
      | panicked => exact noErrSuf_panicked _
      | fuelOut => exact noErrSuf_fuelOut _
    · rw [if_neg h2]
      by_cases h3 : valPart = gs "["
      · rw [if_pos h3]
        have hm := hl [] sc
        cases hmr : plistN [] sc with
        | ok items sc' => exact noErrSuf_ok_of_suffix _ _ _ (hm.2 items sc' hmr)
        | err e => exact absurd hm.1 (by rw [hmr]; simp [PRes.isErrB])
        | panicked => exact noErrSuf_panicked _
        | fuelOut => exact noErrSuf_fuelOut _
      · rw [if_neg h3]
        by_cases h4 : (hasPrefixGo valPart (gs "[") && hasSuffixGo valPart (gs "]")) = true
        · rw [if_pos h4]
          exact noErrSuf_ok_of_suffix _ _ _ (List.suffix_refl _)
        · rw [if_neg h4]
          by_cases h5 : (hasPrefixGo valPart (gs "\x7b") && containsSub valPart (gs "\x7d")) = true
          · rw [if_pos h5]
            exact noErrSuf_ok_of_suffix _ _ _ (List.suffix_refl _)
          · rw [if_neg h5]
            by_cases h6 : (decide (typ = gs "table") && hasPrefixGo valPart (gs "\x7b")) = true
            · rw [if_pos h6]
              have hm := ht [] sc
              cases hmr : ptableN [] sc with
              | ok t sc' => exact noErrSuf_ok_of_suffix _ _ _ (hm.2 t sc' hmr)
              | err e => exact absurd hm.1 (by rw [hmr]; simp [PRes.isErrB])
              | panicked => exact noErrSuf_panicked _
              | fuelOut => exact noErrSuf_fuelOut _
            · rw [if_neg h6]
              exact noErrSuf_ok_of_suffix _ _ _ (List.suffix_refl _)

/-- `parseLine` is well behaved whenever `parseValue` is. -/
theorem parseLineStep_good (pvalueN : GoStr → GoStr → Bool → Sc → PRes PValue)
    (hv : ∀ t v b sc, NoErrSuf (pvalueN t v b sc) sc) (sc : Sc) (line : GoStr) :
    NoErrSuf (parseLineStep pvalueN sc line) sc := by
  unfold parseLineStep
  rcases hkv : splitKeyValueGo line with ⟨keyPart, valPart, lo⟩
  show NoErrSuf (match parseKeyAndTypeGo keyPart with
    | (key, typeAnn) =>
      if typeAnn = gs "quoted" then
        PRes.ok (PNode.mk key (gs "string") (PValue.str
          (if (!(hasPrefixGo valPart (gs "\"")) || !(hasSuffixGo valPart (gs "\""))) = true
            then gs "\"" ++ valPart ++ gs "\"" else valPart))) sc
      else
        match pvalueN typeAnn valPart lo sc with
        | .ok v sc' => PRes.ok (PNode.mk key typeAnn v) sc'
        | .err e => .err e
        | .panicked => .panicked
        | .fuelOut => .fuelOut) sc
  rcases hkt : parseKeyAndTypeGo keyPart with ⟨key, typeAnn⟩
  refine noErrSuf_ite (fun hq => ?_) (fun hq => ?_)
  · exact noErrSuf_ok_of_suffix _ _ _ (List.suffix_refl _)
  · have hm := hv typeAnn valPart lo sc
    cases hmr : pvalueN typeAnn valPart lo sc with
    | ok v sc' => exact noErrSuf_ok_of_suffix _ _ _ (hm.2 v sc' hmr)
    | err e => exact absurd hm.1 (by rw [hmr]; simp [PRes.isErrB])
    | panicked => exact noErrSuf_panicked _
    | fuelOut => exact noErrSuf_fuelOut _

/-- `parseListItem` is well behaved whenever `parseBlock` is. -/
theorem parseListItemStep_good
    (pblockN : List (GoStr × PValue) → Sc → PRes (List (GoStr × PValue)))
    (hb : ∀ acc sc, NoErrSuf (pblockN acc sc) sc) (line : GoStr) (sc : Sc) :
    NoErrSuf (parseListItemStep pblockN line sc) sc := by
  unfold parseListItemStep
  by_cases h1 : hasPrefixGo line (gs "\x7b") = true
  · rw [if_pos h1]
    have hm := hb [] sc
    cases hmr : pblockN [] sc with
    | ok b sc' => exact noErrSuf_ok_of_suffix _ _ _ (hm.2 b sc' hmr)
    | err e => exact absurd hm.1 (by rw [hmr]; simp [PRes.isErrB])
    | panicked => exact noErrSuf_panicked _
    | fuelOut => exact noErrSuf_fuelOut _
  · rw [if_neg h1]
    by_cases h2 : hasPrefixGo line (gs "[") = true
    · rw [if_pos h2]
      exact noErrSuf_ok_of_suffix _ _ _ (List.suffix_refl _)
    · rw [if_neg h2]
      exact noErrSuf_ok_of_suffix _ _ _ (List.suffix_refl _)

/-- `parseBlock` is well behaved whenever `parseLine` and the
next-level `parseBlock` are. -/
theorem parseBlockStep_good (plineP : Sc → GoStr → PRes PNode)
    (pblockP : List (GoStr × PValue) → Sc → PRes (List (GoStr × PValue)))
    (hpl : ∀ sc line, NoErrSuf (plineP sc line) sc)
    (hpb : ∀ acc sc, NoErrSuf (pblockP acc sc) sc)
    (acc : List (GoStr × PValue)) (sc : Sc) :
    NoErrSuf (parseBlockStep plineP pblockP acc sc) sc := by
  obtain ⟨lines, num⟩ := sc
  cases lines with
  | nil => exact noErrSuf_ok_of_suffix _ _ _ (List.suffix_refl _)
  | cons l rest =>
    have hsub : rest <:+ l :: rest := List.suffix_cons l rest
    simp only [parseBlockStep]
    by_cases h1 : trimSpace l = gs "\x7d"
    · rw [if_pos h1]
      exact noErrSuf_ok_of_suffix _ _ _ hsub
    · rw [if_neg h1]
      by_cases h2 : (skipEmptyLineGo (trimSpace l) || skipCommentGo (trimSpace l)) = true
      · rw [if_pos h2]
        have hgb := hpb acc ⟨rest, num + 1⟩
        exact ⟨hgb.1, fun a r hr => (hgb.2 a r hr).trans hsub⟩
      · rw [if_neg h2]
        have hm := hpl ⟨rest, num + 1⟩ (trimSpace l)
        cases hml : plineP ⟨rest, num + 1⟩ (trimSpace l) with
        | ok node sc2 =>
          have h2s := hm.2 node sc2 hml
          have hgb := hpb (putAL acc node.key node.value) sc2
          exact ⟨hgb.1, fun a r hr => ((hgb.2 a r hr).trans h2s).trans hsub⟩
        | err e => exact absurd hm.1 (by rw [hml]; simp [PRes.isErrB])
        | panicked => exact noErrSuf_panicked _
        | fuelOut => exact noErrSuf_fuelOut _

/-- `parseList` is well behaved whenever `parseListItem` and the
next-level `parseList` are. -/
theorem parseListStep_good (pitemP : GoStr → Sc → PRes PValue)
    (plistP : List PValue → Sc → PRes (List PValue))
    (hpi : ∀ line sc, NoErrSuf (pitemP line sc) sc)
    (hps : ∀ acc sc, NoErrSuf (plistP acc sc) sc)
    (acc : List PValue) (sc : Sc) :
    NoErrSuf (parseListStep pitemP plistP acc sc) sc := by
  obtain ⟨lines, num⟩ := sc
  cases lines with
  | nil => exact noErrSuf_ok_of_suffix _ _ _ (List.suffix_refl _)
  | cons l rest =>
    have hsub : rest <:+ l :: rest := List.suffix_cons l rest
    simp only [parseListStep]
    by_cases h1 : trimSpace l = gs "]"
    · rw [if_pos h1]
      exact noErrSuf_ok_of_suffix _ _ _ hsub
    · rw [if_neg h1]
      by_cases h2 : (skipEmptyLineGo (trimSpace l) || skipCommentGo (trimSpace l)) = true
      · rw [if_pos h2]
        have hgs := hps acc ⟨rest, num + 1⟩
        exact ⟨hgs.1, fun a r hr => (hgs.2 a r hr).trans hsub⟩
      · rw [if_neg h2]
        have hm := hpi (trimSpace l) ⟨rest, num + 1⟩
        cases hml : pitemP (trimSpace l) ⟨rest, num + 1⟩ with
        | ok item sc2 =>
          have h2s := hm.2 item sc2 hml
          have hgs := hps (acc ++ [item]) sc2
          exact ⟨hgs.1, fun a r hr => ((hgs.2 a r hr).trans h2s).trans hsub⟩
        | err e => exact absurd hm.1 (by rw [hml]; simp [PRes.isErrB])
        | panicked => exact noErrSuf_panicked _
        | fuelOut => exact noErrSuf_fuelOut _

/-- `parseTable` is well behaved whenever the next-level `parseTable`
is. -/
theorem parseTableStep_good
    (ptableP : List (GoStr × PValue) → Sc → PRes (List (GoStr × PValue)))
    (hpt : ∀ acc sc, NoErrSuf (ptableP acc sc) sc)
    (acc : List (GoStr × PValue)) (sc : Sc) :
    NoErrSuf (parseTableStep ptableP acc sc) sc := by
  obtain ⟨lines, num⟩ := sc
  cases lines with
  | nil => exact noErrSuf_ok_of_suffix _ _ _ (List.suffix_refl _)
  | cons l rest =>
    have hsub : rest <:+ l :: rest := List.suffix_cons l rest
    simp only [parseTableStep]
    by_cases h1 : trimSpace l = gs "\x7d"
    · rw [if_pos h1]
      exact noErrSuf_ok_of_suffix _ _ _ hsub
    · rw [if_neg h1]
      by_cases h2 : (skipEmptyLineGo (trimSpace l) || skipCommentGo (trimSpace l)) = true
      · rw [if_pos h2]
        have hgt := hpt acc ⟨rest, num + 1⟩
        exact ⟨hgt.1, fun a r hr => (hgt.2 a r hr).trans hsub⟩
      · rw [if_neg h2]
        by_cases h3 : hasPrefixGo (trimSpace l) (gs "columns") = true
        · rw [if_pos h3]
          have hgt := hpt (putAL acc (gs "columns")
            (.arr ((parseInlineListGo ((trimSpace l).drop (gs "columns").length)).map .str)))
            ⟨rest, num + 1⟩
          exact ⟨hgt.1, fun a r hr => (hgt.2 a r hr).trans hsub⟩
        · rw [if_neg h3]
          by_cases h4 : hasPrefixGo (trimSpace l) (gs "rows") = true
          · rw [if_pos h4]
            rcases hbl : parseBlockOfListsGo rest (num + 1) with ⟨rows, sc2⟩
            have hs2 : sc2.lines <:+ rest := by
              have := parseBlockOfListsGo_suffix rest (num + 1)
              rw [hbl] at this
              exact this
            have hgt := hpt (putAL acc (gs "rows")
              (.arr (rows.map (fun r => .arr (r.map .str))))) sc2
            exact ⟨hgt.1, fun a r hr => ((hgt.2 a r hr).trans hs2).trans hsub⟩
          · rw [if_neg h4]
            have hgt := hpt acc ⟨rest, num + 1⟩
            exact ⟨hgt.1, fun a r hr => (hgt.2 a r hr).trans hsub⟩

/-- `parseNodes` returns no error on directive-free input whenever
`parseLine` is well behaved and the next-level `parseNodes` has the
same property. -/
theorem parseNodesStep_nodir
    (plintP : GoStr → Sc → PRes PNode) (plineP : Sc → GoStr → PRes PNode)
    (pnodesP : Sc → PRes (List PNode))
    (hpl : ∀ sc line, NoErrSuf (plineP sc line) sc)
    (hpn : ∀ sc, (∀ l ∈ sc.lines, noDirLine l = true) → (pnodesP sc).isErrB = false)
    (sc : Sc) (h : ∀ l ∈ sc.lines, noDirLine l = true) :
    (parseNodesStep plintP plineP pnodesP sc).isErrB = false := by
  obtain ⟨lines, num⟩ := sc
  cases lines with
  | nil => rfl
  | cons l rest =>
    have hl := h l (List.mem_cons_self l rest)
    have hrest : ∀ l' ∈ rest, noDirLine l' = true :=
      fun l' hm => h l' (List.mem_cons_of_mem _ hm)
    simp only [noDirLine, Bool.and_eq_true, Bool.not_eq_true'] at hl
    simp only [parseNodesStep]
    by_cases h1 : (skipEmptyLineGo l || skipCommentGo l) = true
    · rw [if_pos h1]
      exact hpn ⟨rest, num + 1⟩ hrest
    · rw [if_neg h1]
      rw [if_neg (show ¬ hasPrefixGo (trimSpace l) (gs "!use") = true from by
        rw [hl.1]; exact Bool.false_ne_true)]
      rw [if_neg (show ¬ hasPrefixGo (trimSpace l) (gs "!lint") = true from by
        rw [hl.2]; exact Bool.false_ne_true)]
      have hm := hpl ⟨rest, num + 1⟩ l
      cases hml : plineP ⟨rest, num + 1⟩ l with
      | ok node sc2 =>
        have hsuf := hm.2 node sc2 hml
        have hsc2 : ∀ l' ∈ sc2.lines, noDirLine l' = true :=
          fun l' hmem => hrest l' (hsuf.subset hmem)
        show (match pnodesP sc2 with
          | PRes.ok ns sc3 => PRes.ok (node :: ns) sc3
          | r => r).isErrB = false
        cases hm2 : pnodesP sc2 with
        | ok ns sc3 => rfl
        | err e => exact absurd (hpn sc2 hsc2) (by rw [hm2]; simp [PRes.isErrB])
        | panicked => rfl
        | fuelOut => rfl
      | err e => exact absurd hm.1 (by rw [hml]; simp [PRes.isErrB])
      | panicked => rfl
      | fuelOut => rfl

/-- Every fuel level of the parser pack is well behaved. -/
theorem goodParsersAt : ∀ n, GoodParsers (parsersAt n) := by
  intro n
  induction n with
  | zero =>
    refine ⟨fun sc h => rfl, ?_, ?_, ?_,
      fun acc sc => noErrSuf_fuelOut sc, fun acc sc => noErrSuf_fuelOut sc,
      fun acc sc => noErrSuf_fuelOut sc⟩
    · exact fun sc line => parseLineStep_good _
        (fun t v b s => parseValueStep_good _ _ _ (fun a s2 => noErrSuf_fuelOut s2)
          (fun a s2 => noErrSuf_fuelOut s2) (fun a s2 => noErrSuf_fuelOut s2) t v b s)
        sc line
    · exact fun t v b s => parseValueStep_good _ _ _ (fun a s2 => noErrSuf_fuelOut s2)
        (fun a s2 => noErrSuf_fuelOut s2) (fun a s2 => noErrSuf_fuelOut s2) t v b s
    · exact fun line s => parseListItemStep_good _ (fun a s2 => noErrSuf_fuelOut s2) line s
  | succ n ih =>
    obtain ⟨ihn, ihl, ihv, ihi, ihb, ihs, iht⟩ := ih
    have hpb : ∀ acc sc, NoErrSuf ((parsersAt (n + 1)).pblock acc sc) sc :=
      fun acc sc => parseBlockStep_good _ _ ihl ihb acc sc
    have hps : ∀ acc sc, NoErrSuf ((parsersAt (n + 1)).plist acc sc) sc :=
      fun acc sc => parseListStep_good _ _ ihi ihs acc sc
    have hpt : ∀ acc sc, NoErrSuf ((parsersAt (n + 1)).ptable acc sc) sc :=
      fun acc sc => parseTableStep_good _ iht acc sc
    have hpv : ∀ t v b sc, NoErrSuf ((parsersAt (n + 1)).pvalue t v b sc) sc :=
      fun t v b sc => parseValueStep_good _ _ _ hpb hps hpt t v b sc
    exact ⟨fun sc h => parseNodesStep_nodir _ _ _ ihl ihn sc h,
      fun sc line => parseLineStep_good _ hpv sc line, hpv,
      fun line sc => parseListItemStep_good _ hpb line sc, hpb, hps, hpt⟩
/-- C10 (amended): on any input whose lines contain no `!use` or
`!lint` directive, `ParseDocument` never returns a parsing error —
malformed key/value lines and unterminated blocks, lists and fences all
yield some Document — but contrary to the claim, an error-free result
is not guaranteed: a multiline fence with a negative integer type
annotation panics (see the counterexample), which is a crash rather
than a returned error. -/
theorem c10_no_parse_error_without_directives (fuel : Nat) (input : List GoStr)
    (h : ∀ l ∈ input, noDirLine l = true) :
    (parseDocumentGo fuel input).isErrB = false :=
  (goodParsersAt fuel).1 ⟨input, 0⟩ h

/-- C10 witness: a directive-free input with an unterminated block and
a malformed line parses without a returned error. -/
theorem c10_no_parse_error_without_directives_witness :
    (∀ l ∈ [gs "key \x7b", gs "x 1", gs "weird [ line"], noDirLine l = true) ∧
    (parseDocumentGo 5 [gs "key \x7b", gs "x 1", gs "weird [ line"]).isErrB = false :=
  ⟨by decide,
    c10_no_parse_error_without_directives 5 [gs "key \x7b", gs "x 1", gs "weird [ line"]
      (by decide)⟩

/-- C1 (amended): an unterminated block, list or multiline fence does
NOT produce a syntax error.  At end of input `parseBlock`, `parseList`
and `parseTable` return the partially accumulated value successfully,
an unterminated fence returns the collected text (here stated for an
untyped fence), and on arbitrary input none of `parseBlock` and
`parseList` ever returns an error. -/
theorem c1_unterminated_constructs_ok (fuel n : Nat) (line : GoStr)
    (acc accT : List (GoStr × PValue)) (accL : List PValue) (sc : Sc) :
    parseBlockF (fuel + 1) acc ⟨[], n⟩ = .ok acc ⟨[], n⟩
    ∧ parseListF (fuel + 1) accL ⟨[], n⟩ = .ok accL ⟨[], n⟩
    ∧ parseTableF (fuel + 1) accT ⟨[], n⟩ = .ok accT ⟨[], n⟩
    ∧ parseMultilineGo [] line ⟨[], n⟩ = .ok [] ⟨[], n⟩
    ∧ (parseBlockF fuel acc sc).isErrB = false
    ∧ (parseListF fuel accL sc).isErrB = false
    ∧ (parseMultilineGo [] line sc).isErrB = false :=
  ⟨rfl, rfl, rfl, rfl, ((goodParsersAt fuel).2.2.2.2.1 acc sc).1,
    ((goodParsersAt fuel).2.2.2.2.2.1 accL sc).1, (parseMultilineGo_good [] line sc).1⟩

end UP
